import Mathlib

/-!
# coomer-downloader: transfer, deduplication and conversion stages

A shallow embedding of `download.go`, `convert.go` and of the stage sequence of
`startJob` in `main.go`, with the properties of the three stages proved on it.

Modelling decisions:

* Strings are Lean strings. The two library routines used on paths,
  `filepath.Ext` (with `/` as the path separator) and
  `strings.Replace(_, _, _, 1)`, are written out on character lists.
* The file system is a map from paths to the content of the file at the path.
  A file exists when the map has a content for its path. `fs.Remove` may fail:
  every call takes its outcome as an argument, and a failed call changes
  nothing.
* What lives outside the three source files enters as an argument: the answer of
  the HTTP client to a fetch, the output an encoder leaves behind, the SHA-256
  digest, the iteration order of a Go map.
* The goroutine pools (`sync.WaitGroup` plus a buffered channel used as a
  counting semaphore) are a labelled transition system. Every channel
  operation, every blocking call and every bookkeeping block of a worker is one
  move; a schedule is a list of moves.
-/

namespace Coomer

/-! ## Data model -/

/-- File contents. -/
abbrev Bytes := List Nat

/-- The file system seen by `os.Stat`, `afero.ReadFile`, `afero.Exists`,
`fs.Open` and `fs.Remove`: the content of every path that holds a file. -/
abbrev Fs := String → Option Bytes

/-- Go `error` values: `none` is `nil`. -/
abbrev GoError := Option String

/-- Media descriptor (`Media` in the source: only `Url` and `FilePath` are read). -/
structure Media where
  Url : String
  FilePath : String
deriving DecidableEq, Repr

/-- Download record (`Download` in the source). -/
structure Download where
  Url : String
  FilePath : String
  Error : GoError
  IsSuccess : Bool
  Hash : String
deriving DecidableEq, Repr

/-! ## Path helpers (`convert.go`, private functions) -/

/-- Scan of `filepath.Ext` over the reversed path: `acc` holds the characters
already passed (in path order). -/
def extScan (acc : List Char) : List Char → List Char
  | [] => []
  | c :: rest =>
    if c = '/' then []
    else if c = '.' then c :: acc
    else extScan (c :: acc) rest

/-- Go `filepath.Ext`: the suffix beginning at the last dot of the final path
element, empty when there is no dot. -/
def filepathExt (path : List Char) : List Char :=
  extScan [] path.reverse

/-- Replacement of the first occurrence of a non-empty `old`; with an empty `old`
the match is at offset 0. -/
def replaceFirst (old new : List Char) : List Char → List Char
  | [] => if old = [] then new else []
  | c :: s =>
    if old.isPrefixOf (c :: s) then new ++ (c :: s).drop old.length
    else c :: replaceFirst old new s

/-- Go `strings.Replace(s, old, new, 1)`. -/
def stringsReplace1 (s old new : List Char) : List Char :=
  if old = new then s else replaceFirst old new s

/-- Function `replaceExtension` of `convert.go`. -/
def replaceExtension (filePath newExtension : String) : String :=
  let extension := filepathExt filePath.data
  ⟨stringsReplace1 filePath.data extension newExtension.data⟩

/-- Go `filepath.Ext` on strings. -/
def Ext (path : String) : String := ⟨filepathExt path.data⟩

/-- Function `fileExists` of `convert.go`: `afero.Exists`, an error counting as absent. -/
def fileExists (fs : Fs) (filePath : String) : Bool :=
  (fs filePath).isSome

/-- Function `fileSize` of `convert.go`: `-1` when the file cannot be opened. -/
def fileSize (fs : Fs) (filePath : String) : Int :=
  match fs filePath with
  | none => -1
  | some content => (content.length : Int)

/-- The call `fs.Remove(path)` with the outcome of the call: when the call succeeds the
path holds no file afterwards, when it fails nothing changes. -/
def Fs.Remove (fs : Fs) (path : String) (ok : Bool) : Fs :=
  if ok then fun p => if p = path then none else fs p else fs

/-- Writing a file. -/
def Fs.Write (fs : Fs) (path : String) (content : Bytes) : Fs :=
  fun p => if p = path then some content else fs p

/-! ## Transfer (`download.go`) -/

/-- What `client.R().SetOutput(filePath).Get(url)` reports back: the status code
of the response (`resp.StatusCode()`), the error of the call, and the body the
client stored at the output path, if it stored one. -/
structure Response where
  StatusCode : Nat
  err : GoError
  saved : Option Bytes
deriving DecidableEq, Repr

/-- The state the transfer stage acts on: the file system and the list of the
URLs requested from the transport so far. -/
structure World where
  fs : Fs
  fetched : List String

/-- Function `downloadFile` of `download.go`. `resp` is the answer of the transport, used
only when the transport is called. -/
def downloadFile (w : World) (resp : Response) (url filePath : String) : World × GoError :=
  if (w.fs filePath).isSome then
    (w, none)
  else
    let w1 : World :=
      { fs := match resp.saved with
              | some body => w.fs.Write filePath body
              | none => w.fs
        fetched := w.fetched ++ [url] }
    if resp.StatusCode ≠ 200 then
      (w1, some ("Error - HTTP " ++ toString resp.StatusCode))
    else
      (w1, resp.err)

/-- Function `getDownloadInfo` of `download.go`; `sha` is the hexadecimal SHA-256 digest.
A file that cannot be read is hashed as the empty content. -/
def getDownloadInfo (sha : Bytes → String) (fs : Fs) (fileUrl filePath : String)
    (err : GoError) : Download :=
  let file := (fs filePath).getD []
  { Url := fileUrl
    FilePath := filePath
    Error := err
    IsSuccess := err.isNone
    Hash := sha file }

/-! ## Deduplication (`RemoveDuplicates` of `convert.go`) -/

/-- The Go map `duplicates : map[string][]Download`, as the list of its entries
in order of first insertion. -/
abbrev Groups := List (String × List Download)

/-- The statement `duplicates[download.Hash] = append(duplicates[download.Hash], download)`. -/
def Groups.add : Groups → Download → Groups
  | [], d => [(d.Hash, [d])]
  | (h, ds) :: rest, d =>
    if h = d.Hash then (h, ds ++ [d]) :: rest else (h, ds) :: Groups.add rest d

/-- The first loop of `RemoveDuplicates`. -/
def groupByHash (downloads : List Download) : Groups :=
  downloads.foldl Groups.add []

/-- State of the second loop of `RemoveDuplicates`: the counter, the file system
and the paths `fs.Remove` was called on, in call order. -/
structure RemoveState where
  numDeleted : Nat
  fs : Fs
  issued : List String

/-- The inner loop over `deleteList`. `ok n` is the outcome of the removal issued
when the counter stood at `n`. -/
def removeList (ok : Nat → Bool) (st : RemoveState) : List Download → RemoveState
  | [] => st
  | deleteFile :: rest =>
    removeList ok
      { numDeleted := st.numDeleted + 1
        fs := st.fs.Remove deleteFile.FilePath (ok st.numDeleted)
        issued := st.issued ++ [deleteFile.FilePath] }
      rest

/-- The outer loop over the entries of the map, in the order `entries`;
`deleteList := value[1:]`. Every entry built by `groupByHash` is non-empty, so
the slice expression is in range. -/
def removeGroups (ok : Nat → Bool) (st : RemoveState) : Groups → RemoveState
  | [] => st
  | (_, value) :: rest => removeGroups ok (removeList ok st (value.drop 1)) rest

/-- Function `RemoveDuplicates` of `convert.go`. Go leaves the iteration order of a map
unspecified: `order` rearranges the entries into the order of this run. The
integer the function returns is the field `numDeleted` of the result. -/
def RemoveDuplicates (ok : Nat → Bool) (order : Groups → Groups) (fs : Fs)
    (downloads : List Download) : RemoveState :=
  removeGroups ok { numDeleted := 0, fs := fs, issued := [] } (order (groupByHash downloads))

/-- The records the second loop of `RemoveDuplicates` calls `fs.Remove` on, for
the entries taken in the order `entries`. -/
def victims (entries : Groups) : List Download :=
  entries.flatMap (fun e => e.2.drop 1)

/-- The records the second loop of `RemoveDuplicates` leaves alone: `value[0]` of
every entry. -/
def survivors (entries : Groups) : List Download :=
  entries.filterMap (fun e => e.2.head?)

/-- Records with a record before them in the list that carries the same hash:
`before` is the part of the list already passed. -/
def laterDuplicatesFrom (before : List Download) : List Download → List Download
  | [] => []
  | d :: rest =>
    (if before.any (fun e => e.Hash = d.Hash) then [d] else [])
      ++ laterDuplicatesFrom (before ++ [d]) rest

/-- The records that are not the first record in input order carrying their
hash (the wording of the specification). -/
def laterDuplicates (downloads : List Download) : List Download :=
  laterDuplicatesFrom [] downloads

/-- Records with no record before them in the list that carries the same hash. -/
def firstOfHashFrom (before : List Download) : List Download → List Download
  | [] => []
  | d :: rest =>
    (if before.any (fun e => e.Hash = d.Hash) then [] else [d])
      ++ firstOfHashFrom (before ++ [d]) rest

/-- The first record in input order of every hash: the intended survivors. -/
def firstOfHash (downloads : List Download) : List Download :=
  firstOfHashFrom [] downloads

/-- Number of distinct hash values among the records. -/
def distinctHashes (downloads : List Download) : Nat :=
  (downloads.map (fun d => d.Hash)).dedup.length

/-- Contents of the files found on disk at the paths of the records. -/
def filesOnDisk (fs : Fs) (downloads : List Download) : List Bytes :=
  downloads.filterMap (fun d => fs d.FilePath)

/-- Number of distinct paths of the records that hold a file. -/
def filesLeft (fs : Fs) (downloads : List Download) : Nat :=
  ((downloads.map (fun d => d.FilePath)).dedup.filter (fun p => (fs p).isSome)).length

/-! ## Conversion (`ConvertImages`, `ConvertVideos` of `convert.go`) -/

/-- The filter of `ConvertImages`. -/
def isImage (download : Download) : Bool :=
  let extension := Ext download.FilePath
  extension = ".jpg" || extension = ".jpeg" || extension = ".png"

/-- The filter of `ConvertVideos`. -/
def isVideo (download : Download) : Bool :=
  let extension := Ext download.FilePath
  extension = ".gif" || extension = ".mp4" || extension = ".m4v"

/-- The call of the external encoder (`ConvertToAvif`, `ConvertToAv1`) on
`(download.FilePath, outputFile)`: `produced` is the content it leaves at the
output path, `none` when it writes nothing. -/
def runEncoder (newExtension : String) (fs : Fs) (produced : Option Bytes)
    (download : Download) : Fs :=
  let outputFile := replaceExtension download.FilePath newExtension
  match produced with
  | some content => fs.Write outputFile content
  | none => fs

/-- The check after the encoder call and the removal of the original it guards.
The second component tells whether `fs.Remove` was called; `removeOk` is the
outcome of that call. -/
def cleanupOriginal (newExtension : String) (fs : Fs) (removeOk : Bool)
    (download : Download) : Fs × Bool :=
  let outputFile := replaceExtension download.FilePath newExtension
  if fileExists fs outputFile && decide (fileSize fs outputFile > 0) then
    (fs.Remove download.FilePath removeOk, true)
  else
    (fs, false)

/-! ## The goroutine pool shared by `DownloadMedias`, `ConvertImages`, `ConvertVideos`

The three functions have the same skeleton:

```
sem := make(chan struct{}, cap)
for _, item := range items {
    wg.Add(1)
    go func(item) {
        defer wg.Done()
        sem <- struct{}{}
        (blocking call)
        (bookkeeping)
        <-sem
    }(item)
}
wg.Wait()
close(sem)
```
-/

/-- Where a worker goroutine stands; `ρ` is the type of the value the blocking
call hands to the bookkeeping. -/
inductive PC (ρ : Type) where
  /-- started by `go`, not yet past `sem <- struct{}{}` -/
  | queued
  /-- past `sem <- struct{}{}`, the blocking call has not returned -/
  | inflight
  /-- the blocking call returned `r` -/
  | back (r : ρ)
  /-- bookkeeping finished, not yet past `<-sem` -/
  | settled
  /-- past `<-sem`, the deferred `wg.Done()` not yet run -/
  | released
  /-- the goroutine ended -/
  | done
deriving DecidableEq, Repr

/-- The worker holds a token of the semaphore. -/
def PC.holds {ρ : Type} : PC ρ → Bool
  | .inflight | .back _ | .settled => true
  | _ => false

/-- The worker has not yet run `wg.Done()`. -/
def PC.live {ρ : Type} : PC ρ → Bool
  | .done => false
  | _ => true

/-- The blocking call of the worker is running. -/
def PC.flying {ρ : Type} : PC ρ → Bool
  | .inflight => true
  | _ => false

/-- The bookkeeping of the worker has run. -/
def PC.past {ρ : Type} : PC ρ → Bool
  | .settled | .released | .done => true
  | _ => false

/-- The blocking call of the worker has returned. -/
def PC.attempted {ρ : Type} : PC ρ → Bool
  | .queued | .inflight => false
  | _ => true

/-- One stage: its items, the capacity of the channel `sem`, the blocking call
and the bookkeeping that follows it. `α` and `β` are what the environment
contributes to the call and to the bookkeeping. -/
structure Stage (τ σ ρ α β : Type) where
  items : List τ
  cap : Nat
  call : σ → α → τ → σ × ρ
  settle : σ → β → τ → ρ → σ

/-- State of a running stage. -/
structure PoolState (σ ρ : Type) where
  /-- one entry per goroutine started so far, in loop order -/
  pcs : List (PC ρ)
  /-- number of tokens in the channel `sem` -/
  sem : Nat
  /-- counter of the wait group -/
  wg : Nat
  /-- the state the workers share -/
  shared : σ
  /-- `wg.Wait()` has returned -/
  returned : Bool

/-- The moves of the scheduler and of the environment. -/
inductive Act (α β : Type) where
  /-- main goroutine: `wg.Add(1)` and `go func(...)` for the next item -/
  | spawn
  /-- worker `i`: `sem <- struct{}{}` -/
  | acquire (i : Nat)
  /-- worker `i`: its blocking call returns -/
  | call (i : Nat) (env : α)
  /-- worker `i`: its bookkeeping -/
  | settle (i : Nat) (env : β)
  /-- worker `i`: `<-sem` -/
  | release (i : Nat)
  /-- worker `i`: the deferred `wg.Done()` -/
  | finish (i : Nat)
  /-- main goroutine: `wg.Wait()` returns -/
  | wait

/-- State before the loop. -/
def PoolState.init {σ ρ : Type} (shared : σ) : PoolState σ ρ :=
  { pcs := [], sem := 0, wg := 0, shared := shared, returned := false }

/-- One move; `none` when the move is not enabled. A send on `sem` is enabled
when the channel holds fewer than `cap` tokens; `wg.Wait()` returns once the
loop has ended and the counter is zero. -/
def Stage.step {τ σ ρ α β : Type} (S : Stage τ σ ρ α β) (s : PoolState σ ρ) :
    Act α β → Option (PoolState σ ρ)
  | .spawn =>
    if s.returned = false ∧ s.pcs.length < S.items.length then
      some { s with pcs := s.pcs ++ [PC.queued], wg := s.wg + 1 }
    else none
  | .acquire i =>
    match s.pcs[i]? with
    | some .queued =>
      if s.sem < S.cap then
        some { s with pcs := s.pcs.set i PC.inflight, sem := s.sem + 1 }
      else none
    | _ => none
  | .call i env =>
    match s.pcs[i]?, S.items[i]? with
    | some .inflight, some item =>
      let r := S.call s.shared env item
      some { s with pcs := s.pcs.set i (PC.back r.2), shared := r.1 }
    | _, _ => none
  | .settle i env =>
    match s.pcs[i]?, S.items[i]? with
    | some (.back r), some item =>
      some { s with pcs := s.pcs.set i PC.settled, shared := S.settle s.shared env item r }
    | _, _ => none
  | .release i =>
    match s.pcs[i]? with
    | some .settled => some { s with pcs := s.pcs.set i PC.released, sem := s.sem - 1 }
    | _ => none
  | .finish i =>
    match s.pcs[i]? with
    | some .released => some { s with pcs := s.pcs.set i PC.done, wg := s.wg - 1 }
    | _ => none
  | .wait =>
    if s.returned = false ∧ s.pcs.length = S.items.length ∧ s.wg = 0 then
      some { s with returned := true }
    else none

/-- A schedule run from a state; `none` when one of its moves is not enabled. -/
def Stage.run {τ σ ρ α β : Type} (S : Stage τ σ ρ α β) (s : PoolState σ ρ) :
    List (Act α β) → Option (PoolState σ ρ)
  | [] => some s
  | a :: rest =>
    match S.step s a with
    | some s1 => S.run s1 rest
    | none => none

/-- Number of workers whose blocking call is running. -/
def PoolState.inFlight {σ ρ : Type} (s : PoolState σ ρ) : Nat :=
  s.pcs.countP PC.flying

/-- Number of workers whose blocking call has returned. -/
def PoolState.attempts {σ ρ : Type} (s : PoolState σ ρ) : Nat :=
  s.pcs.countP PC.attempted

/-- The schedule that lets the workers `k, k+1, ..., k+n-1` run one after the
other, each to its end, with the environment `envA i`, `envB i` for worker `i`. -/
def sequentialFrom {α β : Type} (envA : Nat → α) (envB : Nat → β) (k : Nat) :
    Nat → List (Act α β)
  | 0 => []
  | n + 1 =>
    [Act.spawn, Act.acquire k, Act.call k (envA k), Act.settle k (envB k),
      Act.release k, Act.finish k] ++ sequentialFrom envA envB (k + 1) n

/-- The sequential schedule of a whole stage over `n` items, ended by `wg.Wait()`. -/
def sequential {α β : Type} (envA : Nat → α) (envB : Nat → β) (n : Nat) : List (Act α β) :=
  sequentialFrom envA envB 0 n ++ [Act.wait]

/-- State shared by the workers of `DownloadMedias`: the world and the slice
`downloads`. -/
structure Transfer where
  world : World
  downloads : List Download

/-- Function `DownloadMedias` of `download.go`: blocking call `downloadFile`, bookkeeping
the append of `getDownloadInfo(...)` under the mutex. The value the function
returns is the field `downloads` of a state with `returned = true`. -/
def DownloadMedias (sha : Bytes → String) (medias : List Media) (parallel : Nat) :
    Stage Media Transfer GoError Response Unit :=
  { items := medias
    cap := parallel
    call := fun s resp media =>
      let r := downloadFile s.world resp media.Url media.FilePath
      ({ s with world := r.1 }, r.2)
    settle := fun s _ media err =>
      { s with downloads :=
          s.downloads ++ [getDownloadInfo sha s.world.fs media.Url media.FilePath err] } }

/-- Function `ConvertImages` of `convert.go`: blocking call `ConvertToAvif`, bookkeeping
the guarded removal of the original. -/
def ConvertImages (downloads : List Download) : Stage Download Fs Unit (Option Bytes) Bool :=
  { items := downloads.filter isImage
    cap := 5
    call := fun fs produced download => (runEncoder ".avif" fs produced download, ())
    settle := fun fs removeOk download _ => (cleanupOriginal ".avif" fs removeOk download).1 }

/-- Function `ConvertVideos` of `convert.go`: blocking call `ConvertToAv1`, bookkeeping the
guarded removal of the original. -/
def ConvertVideos (downloads : List Download) : Stage Download Fs Unit (Option Bytes) Bool :=
  { items := downloads.filter isVideo
    cap := 5
    call := fun fs produced download => (runEncoder ".mkv" fs produced download, ())
    settle := fun fs removeOk download _ => (cleanupOriginal ".mkv" fs removeOk download).1 }

/-- The `(Url, FilePath)` pair of a descriptor. -/
def Media.key (m : Media) : String × String := (m.Url, m.FilePath)

/-- The `(Url, FilePath)` pair of a record. -/
def Download.key (d : Download) : String × String := (d.Url, d.FilePath)

/-! ## Invariants of the pool -/

/-- What holds in every state a stage can reach: the loop has started at most
one goroutine per item; the channel holds one token per worker between
`sem <- struct{}{}` and `<-sem`, never more than its capacity; the wait group
counts the goroutines that have not run `wg.Done()`; and after `wg.Wait()` every
goroutine of every item has ended. -/
structure PoolInv {τ σ ρ α β : Type} (S : Stage τ σ ρ α β) (s : PoolState σ ρ) : Prop where
  started_le : s.pcs.length ≤ S.items.length
  sem_eq : s.sem = s.pcs.countP PC.holds
  wg_eq : s.wg = s.pcs.countP PC.live
  sem_le : s.sem ≤ S.cap
  all_done : s.returned = true → s.pcs.length = S.items.length ∧ ∀ pc ∈ s.pcs, pc = PC.done

/-- The `(Url, FilePath)` pairs of the descriptors whose worker has appended its
record. -/
def credited {ρ : Type} : List Media → List (PC ρ) → List (String × String)
  | m :: ms, pc :: pcs => (if pc.past then [m.key] else []) ++ credited ms pcs
  | _, _ => []

/-- Progress of a worker, from 1 (started) to 6 (ended). -/
def PC.rank {ρ : Type} : PC ρ → Nat
  | .queued => 1
  | .inflight => 2
  | .back _ => 3
  | .settled => 4
  | .released => 5
  | .done => 6

/-- Number of moves made so far. -/
def PoolState.progress {σ ρ : Type} (s : PoolState σ ρ) : Nat :=
  (s.pcs.map PC.rank).sum + (if s.returned then 1 else 0)

/-! ## The stage sequence of `startJob` (`main.go`) -/

/-- The slices `startJob` hands to the stages after the transfer: `successes` to
`RemoveDuplicates`, and `downloads` to `ConvertImages` / `ConvertVideos` when the
flag of the stage is set (`none` when the stage is skipped). -/
structure StageInputs where
  dedup : List Download
  images : Option (List Download)
  videos : Option (List Download)

/-- The arguments of the calls in `startJob`, from the result `downloads` of
`DownloadMedias`. -/
def startJobInputs (downloads : List Download) (convertImages convertVideos : Bool) :
    StageInputs :=
  let successes := downloads.filter (fun download => download.IsSuccess)
  { dedup := successes
    images := if convertImages then some downloads else none
    videos := if convertVideos then some downloads else none }

/-! ## Data of the examples -/

/-- Three records, the first two with the same hash, and the files behind them. -/
def demoDownloads : List Download :=
  [ { Url := "u/1", FilePath := "d/1.jpg", Error := none, IsSuccess := true, Hash := "aa" },
    { Url := "u/2", FilePath := "d/2.jpg", Error := none, IsSuccess := true, Hash := "aa" },
    { Url := "u/3", FilePath := "d/3.jpg", Error := none, IsSuccess := true, Hash := "bb" } ]

/-- A digest for the examples: `"aa"` for the content `[1]`, `"bb"` otherwise. -/
def demoDigest (content : Bytes) : String :=
  if content = [1] then "aa" else "bb"

/-- A file system for the examples: `d/1.jpg` and `d/2.jpg` hold `[1]`, `d/3.jpg`
holds `[2]`. -/
def demoFs : Fs := fun p =>
  if p = "d/1.jpg" then some [1]
  else if p = "d/2.jpg" then some [1]
  else if p = "d/3.jpg" then some [2]
  else none

/-- Three records of one and the same file. -/
def sameFileThrice : List Download :=
  [ { Url := "u/1", FilePath := "d/1.jpg", Error := none, IsSuccess := true, Hash := "aa" },
    { Url := "u/1", FilePath := "d/1.jpg", Error := none, IsSuccess := true, Hash := "aa" },
    { Url := "u/1", FilePath := "d/1.jpg", Error := none, IsSuccess := true, Hash := "aa" } ]

/-- A descriptor for the examples. -/
def media9 : Media := { Url := "u/9", FilePath := "d/9.jpg" }

/-- The record of a fetch of `media9` answered with HTTP 404, the body of the
answer (`[4, 0, 4]`) stored at the destination. -/
def failedDownload : Download :=
  { Url := "u/9", FilePath := "d/9.jpg", Error := some "Error - HTTP 404",
    IsSuccess := false, Hash := "bb" }

/-- The answer of the transport with status 404. -/
def response404 : Response := { StatusCode := 404, err := none, saved := some [4, 0, 4] }

/-- A record of an image that is on disk in `pngFs`. -/
def pngDownload : Download :=
  { Url := "u/3", FilePath := "d/3.png", Error := none, IsSuccess := true, Hash := "bb" }

/-- A file system holding `d/3.png`. -/
def pngFs : Fs := fun p => if p = "d/3.png" then some [2] else none

/-- Two descriptors for the examples. -/
def demoMedias : List Media :=
  [ { Url := "u/1", FilePath := "d/1.jpg" }, { Url := "u/9", FilePath := "d/9.jpg" } ]

/-- The answer of the transport with status 200 and body `[1]`. -/
def response200 : Response := { StatusCode := 200, err := none, saved := some [1] }

/-- A schedule for `demoMedias` with both fetches in flight at the same time; the
second descriptor is answered first, with HTTP 404, and its record is appended
first. -/
def demoSchedule : List (Act Response Unit) :=
  [ Act.spawn, Act.spawn, Act.acquire 1, Act.acquire 0,
    Act.call 1 response404, Act.call 0 response200,
    Act.settle 1 (), Act.settle 0 (),
    Act.release 0, Act.finish 0, Act.release 1, Act.finish 1, Act.wait ]

/-- The state before the loop of `DownloadMedias` on an empty disk. -/
def emptyStart : PoolState Transfer GoError :=
  PoolState.init { world := { fs := fun _ => none, fetched := [] }, downloads := [] }

/-- The state before the loop of `DownloadMedias` on the disk `demoFs`. -/
def demoStart : PoolState Transfer GoError :=
  PoolState.init { world := { fs := demoFs, fetched := [] }, downloads := [] }

/-- The descriptors of the three files of `demoFs`. -/
def demoMediasOnDisk : List Media :=
  [ { Url := "u/1", FilePath := "d/1.jpg" }, { Url := "u/2", FilePath := "d/2.jpg" },
    { Url := "u/3", FilePath := "d/3.jpg" } ]

/-! ## Lemmas on the removal loops -/

theorem removeList_append (ok : Nat → Bool) (st : RemoveState) (l1 l2 : List Download) :
    removeList ok st (l1 ++ l2) = removeList ok (removeList ok st l1) l2 := by
  induction l1 generalizing st with
  | nil => rfl
  | cons d l1 ih => simp [removeList, ih]

theorem removeGroups_eq_removeList (ok : Nat → Bool) (st : RemoveState) (gs : Groups) :
    removeGroups ok st gs = removeList ok st (victims gs) := by
  induction gs generalizing st with
  | nil => rfl
  | cons e gs ih =>
    obtain ⟨h, value⟩ := e
    simp only [removeGroups, victims, List.flatMap_cons, removeList_append]
    exact ih _

theorem removeList_numDeleted (ok : Nat → Bool) (st : RemoveState) (l : List Download) :
    (removeList ok st l).numDeleted = st.numDeleted + l.length := by
  induction l generalizing st with
  | nil => rfl
  | cons d l ih => simp [removeList, ih]; omega

theorem removeList_issued (ok : Nat → Bool) (st : RemoveState) (l : List Download) :
    (removeList ok st l).issued = st.issued ++ l.map (fun d => d.FilePath) := by
  induction l generalizing st with
  | nil => simp [removeList]
  | cons d l ih => simp [removeList, ih]

theorem removeList_fs_of_not_mem (ok : Nat → Bool) (st : RemoveState) (l : List Download)
    (p : String) (hp : p ∉ l.map (fun d => d.FilePath)) :
    (removeList ok st l).fs p = st.fs p := by
  induction l generalizing st with
  | nil => rfl
  | cons d l ih =>
    simp only [List.map_cons, List.mem_cons, not_or] at hp
    simp only [removeList]
    rw [ih _ hp.2]
    simp only [Fs.Remove]
    split
    · simp [hp.1]
    · rfl

theorem removeList_fs_cases (ok : Nat → Bool) (st : RemoveState) (l : List Download)
    (p : String) :
    (removeList ok st l).fs p = st.fs p ∨ (removeList ok st l).fs p = none := by
  induction l generalizing st with
  | nil => exact Or.inl rfl
  | cons d l ih =>
    simp only [removeList]
    rcases ih { numDeleted := st.numDeleted + 1
                fs := st.fs.Remove d.FilePath (ok st.numDeleted)
                issued := st.issued ++ [d.FilePath] } with h | h
    · rw [h]
      simp only [Fs.Remove]
      split
      · by_cases hp : p = d.FilePath
        · right; simp [hp]
        · left; simp [hp]
      · exact Or.inl rfl
    · exact Or.inr h

theorem removeList_fs_all_ok (ok : Nat → Bool) (hok : ∀ n, ok n = true) (st : RemoveState)
    (l : List Download) (p : String) :
    (removeList ok st l).fs p
      = if p ∈ l.map (fun d => d.FilePath) then none else st.fs p := by
  induction l generalizing st with
  | nil => simp [removeList]
  | cons d l ih =>
    simp only [removeList, ih, hok, Fs.Remove, List.map_cons, List.mem_cons, if_true]
    by_cases h1 : p ∈ l.map (fun d => d.FilePath)
    · simp [h1]
    · by_cases h2 : p = d.FilePath
      · simp [h2]
      · simp [h1, h2]

/-! ## Lemmas on the grouping -/

theorem Groups.mem_keys_add (g : Groups) (d : Download) (h : String) :
    h ∈ (g.add d).map Prod.fst ↔ h = d.Hash ∨ h ∈ g.map Prod.fst := by
  induction g with
  | nil => simp [Groups.add]
  | cons e g ih =>
    obtain ⟨k, ds⟩ := e
    simp only [Groups.add]
    split
    · rename_i hk
      subst hk
      simp
    · simp only [List.map_cons, List.mem_cons, ih]
      tauto

theorem Groups.add_nonempty (g : Groups) (d : Download) (hne : ∀ e ∈ g, e.2 ≠ []) :
    ∀ e ∈ g.add d, e.2 ≠ [] := by
  induction g with
  | nil => simp [Groups.add]
  | cons e g ih =>
    obtain ⟨k, ds⟩ := e
    simp only [Groups.add]
    split
    · intro e he
      simp only [List.mem_cons] at he
      rcases he with he | he
      · subst he; simp
      · exact hne e (List.mem_cons_of_mem _ he)
    · intro e he
      simp only [List.mem_cons] at he
      rcases he with he | he
      · subst he; exact hne _ (List.mem_cons_self _ _)
      · exact ih (fun e he => hne e (List.mem_cons_of_mem _ he)) e he

theorem victims_add (g : Groups) (d : Download) (hne : ∀ e ∈ g, e.2 ≠ []) :
    (victims (g.add d)).Perm
      (victims g ++ if d.Hash ∈ g.map Prod.fst then [d] else []) := by
  induction g with
  | nil => simp [Groups.add, victims]
  | cons e g ih =>
    obtain ⟨k, ds⟩ := e
    have hds : ds ≠ [] := hne (k, ds) (List.mem_cons_self _ _)
    have ih1 := ih (fun e he => hne e (List.mem_cons_of_mem _ he))
    simp only [Groups.add]
    split
    · rename_i hk
      subst hk
      obtain ⟨x, xs, rfl⟩ := List.exists_cons_of_ne_nil hds
      simp only [victims, List.flatMap_cons, List.cons_append, List.drop_succ_cons, List.drop_zero,
        List.map_cons, List.mem_cons, true_or, if_true, List.append_assoc]
      refine List.Perm.append_left _ ?_
      simpa [victims] using (List.perm_append_singleton d (victims g)).symm
    · rename_i hk
      have hk1 : ¬ d.Hash = k := fun h => hk h.symm
      simp only [victims, List.flatMap_cons, List.map_cons, List.mem_cons, hk1, false_or,
        List.append_assoc]
      exact List.Perm.append_left _ ih1

theorem groupByHash_snoc (l : List Download) (d : Download) :
    groupByHash (l ++ [d]) = (groupByHash l).add d := by
  simp [groupByHash, List.foldl_append]

theorem groupByHash_nonempty (l : List Download) : ∀ e ∈ groupByHash l, e.2 ≠ [] := by
  induction l using List.reverseRecOn with
  | nil => simp [groupByHash]
  | append_singleton l d ih =>
    rw [groupByHash_snoc]
    exact Groups.add_nonempty _ d ih

theorem mem_keys_groupByHash (l : List Download) (h : String) :
    h ∈ (groupByHash l).map Prod.fst ↔ ∃ e ∈ l, e.Hash = h := by
  induction l using List.reverseRecOn with
  | nil => simp [groupByHash]
  | append_singleton l d ih =>
    rw [groupByHash_snoc, Groups.mem_keys_add, ih]
    constructor
    · rintro (h1 | ⟨e, he, h2⟩)
      · exact ⟨d, by simp, h1.symm⟩
      · exact ⟨e, by simp [he], h2⟩
    · rintro ⟨e, he, h2⟩
      simp only [List.mem_append, List.mem_singleton] at he
      rcases he with he | he
      · exact Or.inr ⟨e, he, h2⟩
      · subst he; exact Or.inl h2.symm

theorem laterDuplicatesFrom_snoc (b l : List Download) (d : Download) :
    laterDuplicatesFrom b (l ++ [d])
      = laterDuplicatesFrom b l
          ++ (if (b ++ l).any (fun e => e.Hash = d.Hash) then [d] else []) := by
  induction l generalizing b with
  | nil => simp [laterDuplicatesFrom]
  | cons x l ih =>
    rw [List.cons_append, laterDuplicatesFrom, laterDuplicatesFrom, ih]
    simp [List.append_assoc]

theorem firstOfHashFrom_snoc (b l : List Download) (d : Download) :
    firstOfHashFrom b (l ++ [d])
      = firstOfHashFrom b l
          ++ (if (b ++ l).any (fun e => e.Hash = d.Hash) then [] else [d]) := by
  induction l generalizing b with
  | nil => simp [firstOfHashFrom]
  | cons x l ih =>
    rw [List.cons_append, firstOfHashFrom, firstOfHashFrom, ih]
    simp [List.append_assoc]

theorem victims_groupByHash (l : List Download) :
    (victims (groupByHash l)).Perm (laterDuplicates l) := by
  induction l using List.reverseRecOn with
  | nil => simp [groupByHash, victims, laterDuplicates, laterDuplicatesFrom]
  | append_singleton l d ih =>
    rw [groupByHash_snoc]
    refine (victims_add _ d (groupByHash_nonempty l)).trans ?_
    unfold laterDuplicates at ih ⊢
    rw [laterDuplicatesFrom_snoc]
    have hc : (d.Hash ∈ (groupByHash l).map Prod.fst)
        ↔ ([] ++ l).any (fun e => e.Hash = d.Hash) = true := by
      rw [mem_keys_groupByHash]
      simp
    by_cases h : d.Hash ∈ (groupByHash l).map Prod.fst
    · rw [if_pos h, if_pos (hc.mp h)]
      exact List.Perm.append_right _ ih
    · rw [if_neg h, if_neg (fun h1 => h (hc.mpr h1))]
      exact List.Perm.append_right _ ih

theorem first_later_perm (b l : List Download) :
    l.Perm (firstOfHashFrom b l ++ laterDuplicatesFrom b l) := by
  induction l generalizing b with
  | nil => simp [firstOfHashFrom, laterDuplicatesFrom]
  | cons d l ih =>
    simp only [firstOfHashFrom, laterDuplicatesFrom]
    split
    · simp only [List.nil_append, List.singleton_append]
      exact ((ih (b ++ [d])).cons d).trans List.perm_middle.symm
    · simp only [List.nil_append, List.singleton_append, List.cons_append]
      exact (ih (b ++ [d])).cons d

theorem firstOfHash_length (l : List Download) :
    (firstOfHash l).length = distinctHashes l := by
  unfold distinctHashes
  rw [← List.card_toFinset]
  induction l using List.reverseRecOn with
  | nil => simp [firstOfHash, firstOfHashFrom]
  | append_singleton l d ih =>
    unfold firstOfHash at ih ⊢
    rw [firstOfHashFrom_snoc, List.length_append, ih, List.map_append, List.toFinset_append]
    simp only [List.nil_append, List.map_cons, List.map_nil, List.toFinset_cons,
      List.toFinset_nil, insert_emptyc_eq]
    by_cases h : l.any (fun e => e.Hash = d.Hash) = true
    · rw [if_pos h]
      have hm : d.Hash ∈ (l.map (fun d => d.Hash)).toFinset := by
        simp only [List.any_eq_true, decide_eq_true_eq] at h
        obtain ⟨e, he, h1⟩ := h
        simp only [List.mem_toFinset, List.mem_map]
        exact ⟨e, he, h1⟩
      rw [Finset.union_comm, ← Finset.insert_eq, Finset.insert_eq_of_mem hm]
      simp
    · rw [if_neg h]
      have hm : d.Hash ∉ (l.map (fun d => d.Hash)).toFinset := by
        intro hm
        apply h
        simp only [List.mem_toFinset, List.mem_map] at hm
        obtain ⟨e, he, h1⟩ := hm
        simp only [List.any_eq_true, decide_eq_true_eq]
        exact ⟨e, he, h1⟩
      rw [Finset.union_comm, ← Finset.insert_eq, Finset.card_insert_of_not_mem hm]
      simp

theorem firstOfHash_covers (l : List Download) :
    ∀ d ∈ l, ∃ f ∈ firstOfHash l, f.Hash = d.Hash := by
  induction l using List.reverseRecOn with
  | nil => simp
  | append_singleton l x ih =>
    have hsub : ∀ f ∈ firstOfHash l, f ∈ firstOfHash (l ++ [x]) := by
      intro f hf
      unfold firstOfHash at hf ⊢
      rw [firstOfHashFrom_snoc]
      exact List.mem_append_left _ hf
    intro d hd
    simp only [List.mem_append, List.mem_singleton] at hd
    rcases hd with hd | hd
    · obtain ⟨f, hf, h1⟩ := ih d hd
      exact ⟨f, hsub f hf, h1⟩
    · subst hd
      by_cases h : l.any (fun e => e.Hash = d.Hash) = true
      · simp only [List.any_eq_true, decide_eq_true_eq] at h
        obtain ⟨e, he, h1⟩ := h
        obtain ⟨f, hf, h2⟩ := ih e he
        exact ⟨f, hsub f hf, h2.trans h1⟩
      · refine ⟨d, ?_, rfl⟩
        unfold firstOfHash
        rw [firstOfHashFrom_snoc]
        simp only [List.nil_append]
        rw [if_neg h]
        simp

theorem survivors_add (g : Groups) (d : Download) (hne : ∀ e ∈ g, e.2 ≠ []) :
    survivors (g.add d)
      = survivors g ++ if d.Hash ∈ g.map Prod.fst then [] else [d] := by
  induction g with
  | nil => simp [Groups.add, survivors]
  | cons e g ih =>
    obtain ⟨k, ds⟩ := e
    have hds : ds ≠ [] := hne (k, ds) (List.mem_cons_self _ _)
    have ih1 := ih (fun e he => hne e (List.mem_cons_of_mem _ he))
    obtain ⟨x, xs, rfl⟩ := List.exists_cons_of_ne_nil hds
    simp only [Groups.add]
    split
    · rename_i hk
      subst hk
      simp [survivors]
    · rename_i hk
      have hk1 : ¬ d.Hash = k := fun h => hk h.symm
      simp only [survivors] at ih1
      simp only [survivors, List.filterMap_cons, List.head?_cons, ih1, List.map_cons,
        List.cons_append]
      by_cases hm : d.Hash ∈ List.map Prod.fst g
      · rw [if_pos hm, if_pos (List.mem_cons_of_mem _ hm)]
      · rw [if_neg hm, if_neg (fun h => by
          rcases List.mem_cons.mp h with h | h
          · exact hk1 h
          · exact hm h)]

theorem survivors_groupByHash (l : List Download) :
    survivors (groupByHash l) = firstOfHash l := by
  induction l using List.reverseRecOn with
  | nil => simp [groupByHash, survivors, firstOfHash, firstOfHashFrom]
  | append_singleton l d ih =>
    rw [groupByHash_snoc, survivors_add _ d (groupByHash_nonempty l), ih]
    unfold firstOfHash
    rw [firstOfHashFrom_snoc]
    have hc : (d.Hash ∈ (groupByHash l).map Prod.fst)
        ↔ ([] ++ l).any (fun e => e.Hash = d.Hash) = true := by
      rw [mem_keys_groupByHash]
      simp
    by_cases h : d.Hash ∈ (groupByHash l).map Prod.fst
    · rw [if_pos h, if_pos (hc.mp h)]
    · rw [if_neg h, if_neg (fun h1 => h (hc.mpr h1))]

/-- The removals of a run, whatever the order of the map: the state after
`RemoveDuplicates` is the state after removing the later duplicates in some order. -/
theorem RemoveDuplicates_eq (ok : Nat → Bool) (order : Groups → Groups) (fs : Fs)
    (downloads : List Download)
    (horder : (order (groupByHash downloads)).Perm (groupByHash downloads)) :
    ∃ vs : List Download, vs.Perm (laterDuplicates downloads) ∧
      RemoveDuplicates ok order fs downloads
        = removeList ok { numDeleted := 0, fs := fs, issued := [] } vs := by
  refine ⟨victims (order (groupByHash downloads)), ?_, ?_⟩
  · exact (List.Perm.flatMap_right _ horder).trans (victims_groupByHash downloads)
  · unfold RemoveDuplicates
    rw [removeGroups_eq_removeList]

theorem firstOfHash_path_not_later (downloads : List Download)
    (hpaths : (downloads.map (fun d => d.FilePath)).Nodup) :
    ∀ d ∈ firstOfHash downloads,
      d.FilePath ∉ (laterDuplicates downloads).map (fun d => d.FilePath) := by
  have hp := (first_later_perm [] downloads).map (fun d => d.FilePath)
  have hn := (hp.nodup_iff).mp hpaths
  rw [List.map_append] at hn
  have hd := (List.nodup_append.mp hn).2.2
  intro d hd1 hd2
  exact hd (List.mem_map_of_mem _ hd1) hd2

theorem filesLeft_eq_countP (fs : Fs) (downloads : List Download)
    (hpaths : (downloads.map (fun d => d.FilePath)).Nodup) :
    filesLeft fs downloads
      = (downloads.map (fun d => d.FilePath)).countP (fun p => (fs p).isSome) := by
  unfold filesLeft
  rw [hpaths.dedup, List.countP_eq_length_filter]

theorem firstOfHash_subset (l : List Download) : ∀ d ∈ firstOfHash l, d ∈ l := by
  intro d hd
  exact (first_later_perm [] l).symm.subset (List.mem_append_left _ hd)

/-! ## Claims on `RemoveDuplicates` -/

/-- C2. Whatever the iteration order of the map and whatever the outcome of the
removals, the paths `fs.Remove` is called on are, as a multiset, the paths of the
records that are not the first record in input order carrying their hash; the
records left alone (`value[0]` of every entry) are the first record of every
hash; and the two kinds together make up the input. -/
theorem RemoveDuplicates_issues_later_duplicates (ok : Nat → Bool) (order : Groups → Groups)
    (fs : Fs) (downloads : List Download)
    (horder : (order (groupByHash downloads)).Perm (groupByHash downloads)) :
    ((RemoveDuplicates ok order fs downloads).issued).Perm
        ((laterDuplicates downloads).map (fun d => d.FilePath))
      ∧ (survivors (order (groupByHash downloads))).Perm (firstOfHash downloads)
      ∧ downloads.Perm (firstOfHash downloads ++ laterDuplicates downloads) := by
  obtain ⟨vs, hvs, hr⟩ := RemoveDuplicates_eq ok order fs downloads horder
  refine ⟨?_, ?_, first_later_perm [] downloads⟩
  · rw [hr, removeList_issued]
    simpa using hvs.map (fun d => d.FilePath)
  · have h := List.Perm.filterMap (fun e : String × List Download => e.2.head?) horder
    have h2 := survivors_groupByHash downloads
    unfold survivors at h2 ⊢
    rw [h2] at h
    exact h

theorem RemoveDuplicates_issues_later_duplicates_witness :
    ((List.reverse (groupByHash demoDownloads)).Perm (groupByHash demoDownloads))
      ∧ ((RemoveDuplicates (fun _ => false) List.reverse demoFs demoDownloads).issued).Perm
          ((laterDuplicates demoDownloads).map (fun d => d.FilePath))
      ∧ (RemoveDuplicates (fun _ => false) List.reverse demoFs demoDownloads).issued
          = ["d/2.jpg"] :=
  ⟨List.reverse_perm _,
    (RemoveDuplicates_issues_later_duplicates (fun _ => false) List.reverse demoFs
      demoDownloads (List.reverse_perm _)).1,
    by decide⟩

/-- C3. For records with pairwise distinct paths, each carrying the hash of the
file at its path: after `RemoveDuplicates`, whatever the iteration order of the
map and whichever removals fail, the number of distinct hashes among the files
still on disk is the number of distinct hashes of the input, the file of the
first record of every hash is there with the content it had, and no file has a
content it did not have before. -/
theorem RemoveDuplicates_keeps_one_file_per_hash (sha : Bytes → String) (ok : Nat → Bool)
    (order : Groups → Groups) (fs : Fs) (downloads : List Download)
    (horder : (order (groupByHash downloads)).Perm (groupByHash downloads))
    (hpaths : (downloads.map (fun d => d.FilePath)).Nodup)
    (hhash : ∀ d ∈ downloads, ∃ content, fs d.FilePath = some content ∧ d.Hash = sha content) :
    (((filesOnDisk (RemoveDuplicates ok order fs downloads).fs downloads).map sha).dedup.length
        = distinctHashes downloads)
      ∧ (∀ d ∈ firstOfHash downloads,
          (RemoveDuplicates ok order fs downloads).fs d.FilePath = fs d.FilePath
            ∧ ∃ content, fs d.FilePath = some content ∧ sha content = d.Hash)
      ∧ (∀ p, (RemoveDuplicates ok order fs downloads).fs p = fs p
          ∨ (RemoveDuplicates ok order fs downloads).fs p = none) := by
  obtain ⟨vs, hvs, hr⟩ := RemoveDuplicates_eq ok order fs downloads horder
  rw [hr]
  have hkeep : ∀ d ∈ firstOfHash downloads,
      (removeList ok { numDeleted := 0, fs := fs, issued := [] } vs).fs d.FilePath
        = fs d.FilePath := by
    intro d hd
    apply removeList_fs_of_not_mem
    intro hmem
    exact firstOfHash_path_not_later downloads hpaths d hd
      ((hvs.map (fun d => d.FilePath)).subset hmem)
  refine ⟨?_, ?_, ?_⟩
  · unfold distinctHashes
    rw [← List.card_toFinset, ← List.card_toFinset]
    congr 1
    apply List.toFinset.ext
    intro h
    simp only [List.mem_map, filesOnDisk, List.mem_filterMap]
    constructor
    · rintro ⟨c, ⟨d, hd, hc⟩, rfl⟩
      obtain ⟨c1, hc1, hh⟩ := hhash d hd
      rcases removeList_fs_cases ok { numDeleted := 0, fs := fs, issued := [] } vs d.FilePath
        with h1 | h1
      · rw [h1] at hc
        simp only at hc
        rw [hc1] at hc
        cases hc
        exact ⟨d, hd, hh⟩
      · rw [h1] at hc
        cases hc
    · rintro ⟨d, hd, rfl⟩
      obtain ⟨f, hf, hfh⟩ := firstOfHash_covers downloads d hd
      have hfl := firstOfHash_subset downloads f hf
      obtain ⟨c, hc, hh⟩ := hhash f hfl
      refine ⟨c, ⟨f, hfl, ?_⟩, ?_⟩
      · rw [hkeep f hf]
        exact hc
      · rw [← hh, hfh]
  · intro d hd
    refine ⟨hkeep d hd, ?_⟩
    obtain ⟨c, hc, hh⟩ := hhash d (firstOfHash_subset downloads d hd)
    exact ⟨c, hc, hh.symm⟩
  · intro p
    exact removeList_fs_cases ok _ vs p

theorem RemoveDuplicates_keeps_one_file_per_hash_witness :
    ((filesOnDisk (RemoveDuplicates (fun _ => false) List.reverse demoFs demoDownloads).fs
        demoDownloads).map demoDigest).dedup.length = 2
      ∧ distinctHashes demoDownloads = 2 :=
  ⟨((RemoveDuplicates_keeps_one_file_per_hash demoDigest (fun _ => false) List.reverse demoFs
      demoDownloads (List.reverse_perm _) (by decide) (by decide)).1).trans (by decide),
    by decide⟩

/-- C4, as amended. The integer `RemoveDuplicates` returns is the number of
removals it issued, and it is the number of input records minus the number of
distinct hashes, whatever the iteration order of the map and the outcome of the
removals. When the paths are pairwise distinct, every path holds a file and every
removal succeeds, it is the number of files removed, and the number of files left
is the number of distinct hashes. -/
theorem RemoveDuplicates_count (ok : Nat → Bool) (order : Groups → Groups) (fs : Fs)
    (downloads : List Download)
    (horder : (order (groupByHash downloads)).Perm (groupByHash downloads)) :
    (RemoveDuplicates ok order fs downloads).numDeleted
        = (RemoveDuplicates ok order fs downloads).issued.length
      ∧ (RemoveDuplicates ok order fs downloads).numDeleted
        = downloads.length - distinctHashes downloads
      ∧ ((downloads.map (fun d => d.FilePath)).Nodup →
          (∀ d ∈ downloads, (fs d.FilePath).isSome = true) →
          (∀ n, ok n = true) →
          filesLeft (RemoveDuplicates ok order fs downloads).fs downloads
              = distinctHashes downloads
            ∧ filesLeft fs downloads
              = filesLeft (RemoveDuplicates ok order fs downloads).fs downloads
                + (RemoveDuplicates ok order fs downloads).numDeleted) := by
  obtain ⟨vs, hvs, hr⟩ := RemoveDuplicates_eq ok order fs downloads horder
  have hsplit : downloads.Perm (firstOfHash downloads ++ laterDuplicates downloads) :=
    first_later_perm [] downloads
  have hlen : downloads.length
      = (firstOfHash downloads).length + (laterDuplicates downloads).length := by
    have := hsplit.length_eq
    rw [List.length_append] at this
    exact this
  have hfirst := firstOfHash_length downloads
  have hnum : (RemoveDuplicates ok order fs downloads).numDeleted
      = (laterDuplicates downloads).length := by
    rw [hr, removeList_numDeleted, hvs.length_eq]
    simp
  refine ⟨?_, ?_, ?_⟩
  · rw [hr, removeList_numDeleted, removeList_issued]
    simp
  · rw [hnum]
    omega
  · intro hpaths hexist hok
    have hleft : filesLeft (RemoveDuplicates ok order fs downloads).fs downloads
        = distinctHashes downloads := by
      rw [filesLeft_eq_countP _ _ hpaths, hr, ← hfirst]
      have hp := hsplit.map (fun d => d.FilePath)
      rw [hp.countP_eq, List.map_append, List.countP_append]
      have h1 : List.countP
          (fun p => ((removeList ok { numDeleted := 0, fs := fs, issued := [] } vs).fs p).isSome)
          ((firstOfHash downloads).map (fun d => d.FilePath))
            = (firstOfHash downloads).length := by
        rw [← List.length_map (firstOfHash downloads) (fun d => d.FilePath)]
        apply List.countP_eq_length.mpr
        intro q hq
        obtain ⟨d, hd, rfl⟩ := List.mem_map.mp hq
        rw [removeList_fs_all_ok ok hok]
        have hnot : d.FilePath ∉ vs.map (fun d => d.FilePath) := fun hmem =>
          firstOfHash_path_not_later downloads hpaths d hd
            ((hvs.map (fun d => d.FilePath)).subset hmem)
        rw [if_neg hnot]
        exact hexist d (firstOfHash_subset downloads d hd)
      have h2 : List.countP
          (fun p => ((removeList ok { numDeleted := 0, fs := fs, issued := [] } vs).fs p).isSome)
          ((laterDuplicates downloads).map (fun d => d.FilePath)) = 0 := by
        apply List.countP_eq_zero.mpr
        intro q hq
        rw [removeList_fs_all_ok ok hok]
        have hin : q ∈ vs.map (fun d => d.FilePath) :=
          (hvs.map (fun d => d.FilePath)).symm.subset hq
        rw [if_pos hin]
        simp
      rw [h1, h2]
      rfl
    refine ⟨hleft, ?_⟩
    have hall : filesLeft fs downloads = downloads.length := by
      rw [filesLeft_eq_countP _ _ hpaths,
        ← List.length_map downloads (fun d => d.FilePath)]
      apply List.countP_eq_length.mpr
      intro q hq
      obtain ⟨d, hd, rfl⟩ := List.mem_map.mp hq
      exact hexist d hd
    rw [hall, hleft, hnum, ← hfirst]
    exact hlen

theorem RemoveDuplicates_count_witness :
    (RemoveDuplicates (fun _ => true) List.reverse demoFs demoDownloads).numDeleted = 1
      ∧ filesLeft (RemoveDuplicates (fun _ => true) List.reverse demoFs demoDownloads).fs
          demoDownloads = 2 :=
  ⟨((RemoveDuplicates_count (fun _ => true) List.reverse demoFs demoDownloads
      (List.reverse_perm _)).2.1).trans (by decide),
    (((RemoveDuplicates_count (fun _ => true) List.reverse demoFs demoDownloads
      (List.reverse_perm _)).2.2 (by decide) (by decide) (fun _ => rfl)).1).trans (by decide)⟩

/-- C4, the claim as stated fails: with three records of which two share a hash,
when the one removal fails `RemoveDuplicates` returns 1 although no file was
removed and 3 files are left; and for three records of one file (same path, same
hash) it returns 2 although one file was removed. -/
theorem RemoveDuplicates_count_not_files_removed :
    ((RemoveDuplicates (fun _ => false) id demoFs demoDownloads).numDeleted = 1
        ∧ filesLeft demoFs demoDownloads = 3
        ∧ filesLeft (RemoveDuplicates (fun _ => false) id demoFs demoDownloads).fs
            demoDownloads = 3)
      ∧ ((RemoveDuplicates (fun _ => true) id demoFs sameFileThrice).numDeleted = 2
        ∧ filesLeft demoFs sameFileThrice = 1
        ∧ filesLeft (RemoveDuplicates (fun _ => true) id demoFs sameFileThrice).fs
            sameFileThrice = 0) := by
  decide

/-! ## Lemmas on the path helpers -/

theorem extScan_suffix (acc r : List Char) : extScan acc r <:+ r.reverse ++ acc := by
  induction r generalizing acc with
  | nil => exact List.nil_suffix
  | cons c r ih =>
    simp only [extScan]
    split
    · exact List.nil_suffix
    · split
      · rw [List.reverse_cons, List.append_assoc]
        exact List.suffix_append _ _
      · have := ih (c :: acc)
        rw [List.reverse_cons, List.append_assoc]
        exact this

theorem filepathExt_suffix (path : List Char) : filepathExt path <:+ path := by
  have := extScan_suffix [] path.reverse
  simpa [filepathExt] using this

theorem replaceFirst_of_infix (old new s : List Char) (h : old <:+: s) :
    ∃ pre post, s = pre ++ old ++ post ∧ replaceFirst old new s = pre ++ new ++ post := by
  induction s with
  | nil =>
    have : old = [] := List.eq_nil_of_infix_nil h
    subst this
    exact ⟨[], [], rfl, by simp [replaceFirst]⟩
  | cons c s ih =>
    simp only [replaceFirst]
    split
    · rename_i hp
      obtain ⟨post, hpost⟩ := List.isPrefixOf_iff_prefix.mp hp
      refine ⟨[], post, by simpa using hpost.symm, ?_⟩
      rw [← hpost]
      simp
    · rename_i hp
      have hnp : ¬ old <+: c :: s := fun h1 => hp (List.isPrefixOf_iff_prefix.mpr h1)
      rcases List.infix_cons_iff.mp h with h1 | h1
      · exact absurd h1 hnp
      · obtain ⟨pre, post, hs, hr⟩ := ih h1
        exact ⟨c :: pre, post, by simp [hs], by simp [hr]⟩

theorem replaceExtension_ne (filePath newExtension : String)
    (hne : Ext filePath ≠ newExtension) :
    replaceExtension filePath newExtension ≠ filePath := by
  have hne1 : filepathExt filePath.data ≠ newExtension.data := by
    intro h
    apply hne
    unfold Ext
    rw [h]
  obtain ⟨pre, post, hs, hr⟩ :=
    replaceFirst_of_infix (filepathExt filePath.data) newExtension.data filePath.data
      (filepathExt_suffix filePath.data).isInfix
  intro heq
  have hd : (replaceExtension filePath newExtension).data = filePath.data := by rw [heq]
  simp only [replaceExtension, stringsReplace1, if_neg hne1] at hd
  rw [hr] at hd
  rw [hs] at hd
  simp only [List.append_assoc, List.append_cancel_left_eq, List.append_cancel_right_eq] at hd
  exact hne1 hd.symm

/-! ## Claims on the path helpers, the fetch and the conversion -/

/-- C10, the code at the failing inputs: `replaceExtension` replaces the first
occurrence of the extension text in the whole path, which is not the trailing
extension when the same text occurs earlier in the file name or in a directory
name. -/
theorem replaceExtension_first_occurrence :
    Ext "d/a.png.png" = ".png"
      ∧ replaceExtension "d/a.png.png" ".avif" = "d/a.avif.png"
      ∧ replaceExtension "d/a.png.png" ".avif" ≠ "d/a.png.avif"
      ∧ Ext "user.jpg/1.jpg" = ".jpg"
      ∧ replaceExtension "user.jpg/1.jpg" ".avif" = "user.avif/1.jpg"
      ∧ replaceExtension "user.jpg/1.jpg" ".avif" ≠ "user.jpg/1.avif" := by
  decide

/-- C7, as amended. For a destination that holds no file, `downloadFile` returns
an error, and the record has `IsSuccess = false` with that error, exactly when
the status of the response is not 200 or the call of the transport returned an
error; for status 200 and no error the record has `IsSuccess = true`. -/
theorem downloadFile_fails_iff_not_200 (sha : Bytes → String) (w : World) (resp : Response)
    (url filePath : String) (hnew : w.fs filePath = none) :
    ((downloadFile w resp url filePath).2 ≠ none
        ↔ (resp.StatusCode ≠ 200 ∨ resp.err ≠ none))
      ∧ ((getDownloadInfo sha (downloadFile w resp url filePath).1.fs url filePath
            (downloadFile w resp url filePath).2).IsSuccess = false
          ↔ (resp.StatusCode ≠ 200 ∨ resp.err ≠ none))
      ∧ (getDownloadInfo sha (downloadFile w resp url filePath).1.fs url filePath
            (downloadFile w resp url filePath).2).Error = (downloadFile w resp url filePath).2
      ∧ ((resp.StatusCode = 200 ∧ resp.err = none) →
          (getDownloadInfo sha (downloadFile w resp url filePath).1.fs url filePath
            (downloadFile w resp url filePath).2).IsSuccess = true) := by
  have hcases : (downloadFile w resp url filePath).2
      = if resp.StatusCode ≠ 200 then some ("Error - HTTP " ++ toString resp.StatusCode)
        else resp.err := by
    simp only [downloadFile, hnew, Option.isSome_none, Bool.false_eq_true, if_false]
    split <;> rfl
  simp only [getDownloadInfo, hcases]
  by_cases h200 : resp.StatusCode = 200
  · cases herr : resp.err <;> simp [h200, herr]
  · simp [h200]

theorem downloadFile_fails_iff_not_200_witness :
    ((getDownloadInfo demoDigest
        (downloadFile { fs := fun _ => none, fetched := [] }
          { StatusCode := 200, err := none, saved := some [1] } "u/1" "d/1.jpg").1.fs
        "u/1" "d/1.jpg"
        (downloadFile { fs := fun _ => none, fetched := [] }
          { StatusCode := 200, err := none, saved := some [1] } "u/1" "d/1.jpg").2).IsSuccess
      = true) :=
  (downloadFile_fails_iff_not_200 demoDigest { fs := fun _ => none, fetched := [] }
    { StatusCode := 200, err := none, saved := some [1] } "u/1" "d/1.jpg" rfl).2.2.2
    ⟨rfl, rfl⟩

/-- C7, the claim as stated fails: a response with status 204 (a 2xx status) and
no transport error, for a destination that holds no file, gives a record with
`IsSuccess = false` and an error. -/
theorem downloadFile_status_204_fails :
    (200 ≤ 204 ∧ 204 ≤ 299)
      ∧ (downloadFile { fs := fun _ => none, fetched := [] }
          { StatusCode := 204, err := none, saved := some [] } "u/1" "d/1.jpg").2 ≠ none
      ∧ (getDownloadInfo demoDigest
          (downloadFile { fs := fun _ => none, fetched := [] }
            { StatusCode := 204, err := none, saved := some [] } "u/1" "d/1.jpg").1.fs
          "u/1" "d/1.jpg"
          (downloadFile { fs := fun _ => none, fetched := [] }
            { StatusCode := 204, err := none, saved := some [] } "u/1" "d/1.jpg").2).IsSuccess
        = false := by
  refine ⟨by decide, ?_, ?_⟩
  · simp [downloadFile]
  · simp [downloadFile, getDownloadInfo]

theorem cleanupOriginal_spec (newExtension : String) (fs : Fs) (produced : Option Bytes)
    (removeOk : Bool) (d : Download) (hne : Ext d.FilePath ≠ newExtension) :
    ((cleanupOriginal newExtension (runEncoder newExtension fs produced d) removeOk d).2 = true
        ↔ (fileExists (runEncoder newExtension fs produced d) (replaceExtension d.FilePath newExtension) = true
          ∧ fileSize (runEncoder newExtension fs produced d) (replaceExtension d.FilePath newExtension) > 0))
    ∧ ((cleanupOriginal newExtension (runEncoder newExtension fs produced d) removeOk d).2 = false →
        (cleanupOriginal newExtension (runEncoder newExtension fs produced d) removeOk d).1 = runEncoder newExtension fs produced d
          ∧ (cleanupOriginal newExtension (runEncoder newExtension fs produced d) removeOk d).1 d.FilePath = fs d.FilePath)
    ∧ ((cleanupOriginal newExtension (runEncoder newExtension fs produced d) removeOk d).2 = true → removeOk = true →
        (cleanupOriginal newExtension (runEncoder newExtension fs produced d) removeOk d).1 d.FilePath = none)
    ∧ (removeOk = false →
        (cleanupOriginal newExtension (runEncoder newExtension fs produced d) removeOk d).1 = runEncoder newExtension fs produced d
          ∧ (cleanupOriginal newExtension (runEncoder newExtension fs produced d) removeOk d).1 d.FilePath = fs d.FilePath)
    ∧ (∀ p, p ≠ d.FilePath →
        (cleanupOriginal newExtension (runEncoder newExtension fs produced d) removeOk d).1 p = runEncoder newExtension fs produced d p)
    ∧ ((fileExists (runEncoder newExtension fs produced d) (replaceExtension d.FilePath newExtension) = false
          ∨ fileSize (runEncoder newExtension fs produced d) (replaceExtension d.FilePath newExtension) ≤ 0) →
        (cleanupOriginal newExtension (runEncoder newExtension fs produced d) removeOk d).2 = false
          ∧ (cleanupOriginal newExtension (runEncoder newExtension fs produced d) removeOk d).1 = runEncoder newExtension fs produced d
          ∧ (cleanupOriginal newExtension (runEncoder newExtension fs produced d) removeOk d).1 d.FilePath = fs d.FilePath)
    ∧ (produced = some [] →
        (cleanupOriginal newExtension (runEncoder newExtension fs produced d) removeOk d).2 = false) := by
  have hout : d.FilePath ≠ replaceExtension d.FilePath newExtension :=
    fun h => replaceExtension_ne d.FilePath newExtension hne h.symm
  have horig : runEncoder newExtension fs produced d d.FilePath = fs d.FilePath := by
    unfold runEncoder
    cases produced with
    | none => rfl
    | some content => simp [Fs.Write, hout]
  have hdef : cleanupOriginal newExtension (runEncoder newExtension fs produced d) removeOk d
      = if (fileExists (runEncoder newExtension fs produced d)
              (replaceExtension d.FilePath newExtension)
            && decide (fileSize (runEncoder newExtension fs produced d)
              (replaceExtension d.FilePath newExtension) > 0)) = true
        then ((runEncoder newExtension fs produced d).Remove d.FilePath removeOk, true)
        else (runEncoder newExtension fs produced d, false) := rfl
  rw [hdef]
  by_cases hc : (fileExists (runEncoder newExtension fs produced d)
              (replaceExtension d.FilePath newExtension)
            && decide (fileSize (runEncoder newExtension fs produced d)
              (replaceExtension d.FilePath newExtension) > 0)) = true
  · rw [if_pos hc]
    have hc1 := hc
    simp only [Bool.and_eq_true, decide_eq_true_eq] at hc1
    refine ⟨?_, ?_, ?_, ?_, ?_, ?_, ?_⟩
    · simpa using hc1
    · intro h; cases h
    · intro _ hok
      simp [Fs.Remove, hok]
    · intro hok
      subst hok
      exact ⟨rfl, horig⟩
    · intro p hp
      simp only [Fs.Remove]
      split
      · simp [hp]
      · rfl
    · rintro (h | h)
      · rw [hc1.1] at h
        cases h
      · have := hc1.2
        omega
    · intro hp
      subst hp
      simp [runEncoder, Fs.Write, fileSize] at hc1
  · rw [if_neg hc]
    have hc1 := hc
    simp only [Bool.and_eq_true, decide_eq_true_eq] at hc1
    refine ⟨?_, ?_, ?_, ?_, ?_, ?_, ?_⟩
    · simpa using hc1
    · intro _; exact ⟨rfl, horig⟩
    · intro h; cases h
    · intro _; exact ⟨rfl, horig⟩
    · intro p _; rfl
    · intro _; exact ⟨rfl, rfl, horig⟩
    · intro _; rfl

theorem isImage_ext_ne (d : Download) (h : isImage d = true) : Ext d.FilePath ≠ ".avif" := by
  intro he
  simp only [isImage, he] at h
  revert h
  decide

theorem isVideo_ext_ne (d : Download) (h : isVideo d = true) : Ext d.FilePath ≠ ".mkv" := by
  intro he
  simp only [isVideo, he] at h
  revert h
  decide

/-- C5, as amended. For every item of `ConvertImages` (extension `.jpg`, `.jpeg`
or `.png`) and of `ConvertVideos` (extension `.gif`, `.mp4` or `.m4v`): the
worker calls `fs.Remove` on the original exactly when, after the encoder call,
the derived output path exists with a size above zero. When it does not call it,
the file system is as the encoder left it and the original is as it was before
the encoder call; when it calls it and the removal succeeds, the original is
gone; when the removal fails, the file system is as the encoder left it and the
original is as it was before the encoder call; no other path is touched; when
after the encoder call the output path is absent or holds a zero-byte file, the
call is not made and the original is as it was; and a zero-byte output written
by the encoder never leads to the call. -/
theorem conversion_removal_guard (downloads : List Download) (fs : Fs)
    (produced : Option Bytes) (removeOk : Bool) (d : Download) :
    (d ∈ (ConvertImages downloads).items →
      ((cleanupOriginal ".avif" (runEncoder ".avif" fs produced d) removeOk d).2 = true
          ↔ (fileExists (runEncoder ".avif" fs produced d) (replaceExtension d.FilePath ".avif") = true
            ∧ fileSize (runEncoder ".avif" fs produced d) (replaceExtension d.FilePath ".avif") > 0))
      ∧ ((cleanupOriginal ".avif" (runEncoder ".avif" fs produced d) removeOk d).2 = false →
          (cleanupOriginal ".avif" (runEncoder ".avif" fs produced d) removeOk d).1 = runEncoder ".avif" fs produced d
            ∧ (cleanupOriginal ".avif" (runEncoder ".avif" fs produced d) removeOk d).1 d.FilePath = fs d.FilePath)
      ∧ ((cleanupOriginal ".avif" (runEncoder ".avif" fs produced d) removeOk d).2 = true → removeOk = true →
          (cleanupOriginal ".avif" (runEncoder ".avif" fs produced d) removeOk d).1 d.FilePath = none)
      ∧ (removeOk = false →
          (cleanupOriginal ".avif" (runEncoder ".avif" fs produced d) removeOk d).1 = runEncoder ".avif" fs produced d
            ∧ (cleanupOriginal ".avif" (runEncoder ".avif" fs produced d) removeOk d).1 d.FilePath = fs d.FilePath)
      ∧ (∀ p, p ≠ d.FilePath →
          (cleanupOriginal ".avif" (runEncoder ".avif" fs produced d) removeOk d).1 p = runEncoder ".avif" fs produced d p)
      ∧ ((fileExists (runEncoder ".avif" fs produced d) (replaceExtension d.FilePath ".avif") = false
            ∨ fileSize (runEncoder ".avif" fs produced d) (replaceExtension d.FilePath ".avif") ≤ 0) →
          (cleanupOriginal ".avif" (runEncoder ".avif" fs produced d) removeOk d).2 = false
            ∧ (cleanupOriginal ".avif" (runEncoder ".avif" fs produced d) removeOk d).1 = runEncoder ".avif" fs produced d
            ∧ (cleanupOriginal ".avif" (runEncoder ".avif" fs produced d) removeOk d).1 d.FilePath = fs d.FilePath)
      ∧ (produced = some [] →
          (cleanupOriginal ".avif" (runEncoder ".avif" fs produced d) removeOk d).2 = false))
    ∧ (d ∈ (ConvertVideos downloads).items →
      ((cleanupOriginal ".mkv" (runEncoder ".mkv" fs produced d) removeOk d).2 = true
          ↔ (fileExists (runEncoder ".mkv" fs produced d) (replaceExtension d.FilePath ".mkv") = true
            ∧ fileSize (runEncoder ".mkv" fs produced d) (replaceExtension d.FilePath ".mkv") > 0))
      ∧ ((cleanupOriginal ".mkv" (runEncoder ".mkv" fs produced d) removeOk d).2 = false →
          (cleanupOriginal ".mkv" (runEncoder ".mkv" fs produced d) removeOk d).1 = runEncoder ".mkv" fs produced d
            ∧ (cleanupOriginal ".mkv" (runEncoder ".mkv" fs produced d) removeOk d).1 d.FilePath = fs d.FilePath)
      ∧ ((cleanupOriginal ".mkv" (runEncoder ".mkv" fs produced d) removeOk d).2 = true → removeOk = true →
          (cleanupOriginal ".mkv" (runEncoder ".mkv" fs produced d) removeOk d).1 d.FilePath = none)
      ∧ (removeOk = false →
          (cleanupOriginal ".mkv" (runEncoder ".mkv" fs produced d) removeOk d).1 = runEncoder ".mkv" fs produced d
            ∧ (cleanupOriginal ".mkv" (runEncoder ".mkv" fs produced d) removeOk d).1 d.FilePath = fs d.FilePath)
      ∧ (∀ p, p ≠ d.FilePath →
          (cleanupOriginal ".mkv" (runEncoder ".mkv" fs produced d) removeOk d).1 p = runEncoder ".mkv" fs produced d p)
      ∧ ((fileExists (runEncoder ".mkv" fs produced d) (replaceExtension d.FilePath ".mkv") = false
            ∨ fileSize (runEncoder ".mkv" fs produced d) (replaceExtension d.FilePath ".mkv") ≤ 0) →
          (cleanupOriginal ".mkv" (runEncoder ".mkv" fs produced d) removeOk d).2 = false
            ∧ (cleanupOriginal ".mkv" (runEncoder ".mkv" fs produced d) removeOk d).1 = runEncoder ".mkv" fs produced d
            ∧ (cleanupOriginal ".mkv" (runEncoder ".mkv" fs produced d) removeOk d).1 d.FilePath = fs d.FilePath)
      ∧ (produced = some [] →
          (cleanupOriginal ".mkv" (runEncoder ".mkv" fs produced d) removeOk d).2 = false)) := by
  constructor
  · intro hd
    have hm : isImage d = true := (List.mem_filter.mp hd).2
    exact cleanupOriginal_spec ".avif" fs produced removeOk d (isImage_ext_ne d hm)
  · intro hd
    have hm : isVideo d = true := (List.mem_filter.mp hd).2
    exact cleanupOriginal_spec ".mkv" fs produced removeOk d (isVideo_ext_ne d hm)

theorem conversion_removal_guard_witness :
    pngDownload ∈ (ConvertImages [pngDownload]).items
      ∧ (cleanupOriginal ".avif" (runEncoder ".avif" pngFs (some []) pngDownload) true
          pngDownload).2 = false
      ∧ (cleanupOriginal ".avif" (runEncoder ".avif" pngFs (some []) pngDownload) true
          pngDownload).1 "d/3.png" = some [2]
      ∧ (cleanupOriginal ".avif" (runEncoder ".avif" pngFs none pngDownload) true
          pngDownload).2 = false
      ∧ (cleanupOriginal ".avif" (runEncoder ".avif" pngFs (some [7]) pngDownload) true
          pngDownload).1 "d/3.png" = none
      ∧ (cleanupOriginal ".avif" (runEncoder ".avif" pngFs (some [7]) pngDownload) false
          pngDownload).1 = runEncoder ".avif" pngFs (some [7]) pngDownload :=
  ⟨by decide,
    ((conversion_removal_guard [pngDownload] pngFs (some []) true pngDownload).1
      (by decide)).2.2.2.2.2.2 rfl,
    by decide,
    (((conversion_removal_guard [pngDownload] pngFs none true pngDownload).1
      (by decide)).2.2.2.2.2.1 (Or.inl (by decide))).1,
    ((conversion_removal_guard [pngDownload] pngFs (some [7]) true pngDownload).1
      (by decide)).2.2.1 (by decide) rfl,
    (((conversion_removal_guard [pngDownload] pngFs (some [7]) false pngDownload).1
      (by decide)).2.2.2.1 rfl).1⟩

/-- C5, the claim as stated fails: the encoder leaves a non-empty `d/3.avif`, so
the output path exists with a size above zero, the removal of the original is
issued and fails, and `d/3.png` is still on disk with its content. -/
theorem conversion_original_survives_failed_removal :
    pngDownload ∈ (ConvertImages [pngDownload]).items
      ∧ fileExists (runEncoder ".avif" pngFs (some [7]) pngDownload)
          (replaceExtension pngDownload.FilePath ".avif") = true
      ∧ fileSize (runEncoder ".avif" pngFs (some [7]) pngDownload)
          (replaceExtension pngDownload.FilePath ".avif") > 0
      ∧ (cleanupOriginal ".avif" (runEncoder ".avif" pngFs (some [7]) pngDownload) false
          pngDownload).2 = true
      ∧ (cleanupOriginal ".avif" (runEncoder ".avif" pngFs (some [7]) pngDownload) false
          pngDownload).1 "d/3.png" = some [2] := by
  decide

/-- C6, the code at the failing input: a fetch answered with HTTP 404 gives a
record with `IsSuccess = false`; `startJob` keeps it out of the slice it hands to
`RemoveDuplicates` but hands it to `ConvertImages` and `ConvertVideos`; it is an
item of `ConvertImages`, its worker calls the encoder on it, and when the encoder
leaves a non-empty output the file of the failed record is removed. -/
theorem startJob_converts_failed_download :
    (((DownloadMedias demoDigest [media9] 3).run
          (PoolState.init { world := { fs := fun _ => none, fetched := [] }, downloads := [] })
          (sequential (fun _ => response404) (fun _ => ()) 1)).map
        (fun s => s.shared.downloads) = some [failedDownload])
      ∧ (startJobInputs [failedDownload] true true).dedup = []
      ∧ (startJobInputs [failedDownload] true true).images = some [failedDownload]
      ∧ (startJobInputs [failedDownload] true true).videos = some [failedDownload]
      ∧ (ConvertImages [failedDownload]).items = [failedDownload]
      ∧ (((ConvertImages [failedDownload]).run
            (PoolState.init (fun p => if p = "d/9.jpg" then some [4, 0, 4] else none))
            (sequential (fun _ => some [7]) (fun _ => true) 1)).map
          (fun s => (s.returned, s.shared "d/9.jpg", s.shared "d/9.avif"))
        = some (true, none, some [7])) := by
  decide

/-! ## Lemmas on the pool -/

theorem countP_set_of_getElem? {γ : Type} (p : γ → Bool) (l : List γ) (i : Nat) (a b : γ)
    (h : l[i]? = some a) :
    (l.set i b).countP p + (if p a = true then 1 else 0)
      = l.countP p + (if p b = true then 1 else 0) := by
  induction l generalizing i with
  | nil => simp at h
  | cons x l ih =>
    cases i with
    | zero =>
      simp only [List.getElem?_cons_zero, Option.some.injEq] at h
      subst h
      simp only [List.set_cons_zero, List.countP_cons]
      omega
    | succ i =>
      simp only [List.getElem?_cons_succ] at h
      have := ih i h
      simp only [List.set_cons_succ, List.countP_cons]
      omega

theorem Stage.run_append {τ σ ρ α β : Type} (S : Stage τ σ ρ α β) (s : PoolState σ ρ)
    (as bs : List (Act α β)) :
    S.run s (as ++ bs) = (S.run s as).bind (fun s1 => S.run s1 bs) := by
  induction as generalizing s with
  | nil => rfl
  | cons a as ih =>
    simp only [List.cons_append, Stage.run]
    cases S.step s a with
    | none => rfl
    | some s1 => exact ih s1

/-- A property that holds at the start and is kept by every move holds after
every schedule. -/
theorem Stage.run_induction {τ σ ρ α β : Type} (S : Stage τ σ ρ α β)
    (J : PoolState σ ρ → Prop)
    (hstep : ∀ s a s1, J s → S.step s a = some s1 → J s1)
    (s : PoolState σ ρ) (hs : J s) (schedule : List (Act α β)) (s1 : PoolState σ ρ)
    (hrun : S.run s schedule = some s1) : J s1 := by
  induction schedule generalizing s with
  | nil =>
    simp only [Stage.run, Option.some.injEq] at hrun
    subst hrun
    exact hs
  | cons a rest ih =>
    simp only [Stage.run] at hrun
    cases hst : S.step s a with
    | none => rw [hst] at hrun; cases hrun
    | some s2 =>
      rw [hst] at hrun
      exact ih s2 (hstep s a s2 hs hst) hrun

/-- A move of worker `i` from `a` to `b` keeps the invariant. -/
theorem PoolInv.worker_move {τ σ ρ α β : Type} (S : Stage τ σ ρ α β) (s s1 : PoolState σ ρ)
    (i : Nat) (a b : PC ρ) (hinv : PoolInv S s) (ha : s.pcs[i]? = some a)
    (hlive : a.live = true) (hpcs : s1.pcs = s.pcs.set i b)
    (hsem : s1.sem + (if a.holds = true then 1 else 0)
      = s.sem + (if b.holds = true then 1 else 0))
    (hwg : s1.wg + (if a.live = true then 1 else 0) = s.wg + (if b.live = true then 1 else 0))
    (hcap : s1.sem ≤ S.cap) (hret : s1.returned = s.returned) : PoolInv S s1 := by
  have hnot : s.returned = false := by
    cases hr : s.returned with
    | false => rfl
    | true =>
      have hd := (hinv.all_done hr).2 a (List.getElem?_mem ha)
      subst hd
      cases hlive
  refine ⟨?_, ?_, ?_, hcap, ?_⟩
  · rw [hpcs, List.length_set]
    exact hinv.started_le
  · have := countP_set_of_getElem? PC.holds s.pcs i a b ha
    have h2 := hinv.sem_eq
    rw [hpcs]
    omega
  · have := countP_set_of_getElem? PC.live s.pcs i a b ha
    have h2 := hinv.wg_eq
    rw [hpcs]
    omega
  · intro h
    rw [hret, hnot] at h
    cases h

theorem PoolInv.init {τ σ ρ α β : Type} (S : Stage τ σ ρ α β) (shared : σ) :
    PoolInv S (PoolState.init shared : PoolState σ ρ) :=
  ⟨by simp [PoolState.init], by simp [PoolState.init], by simp [PoolState.init],
    by simp [PoolState.init], by simp [PoolState.init]⟩

theorem Stage.step_spawn {τ σ ρ α β : Type} (S : Stage τ σ ρ α β) (s s1 : PoolState σ ρ)
    (h : S.step s (Act.spawn : Act α β) = some s1) :
    s.returned = false ∧ s.pcs.length < S.items.length
      ∧ s1 = { s with pcs := s.pcs ++ [PC.queued], wg := s.wg + 1 } := by
  simp only [Stage.step] at h
  split at h
  · rename_i hc
    simp only [Option.some.injEq] at h
    exact ⟨hc.1, hc.2, h.symm⟩
  · cases h

theorem Stage.step_acquire {τ σ ρ α β : Type} (S : Stage τ σ ρ α β) (s s1 : PoolState σ ρ)
    (i : Nat) (h : S.step s (Act.acquire i : Act α β) = some s1) :
    s.pcs[i]? = some PC.queued ∧ s.sem < S.cap
      ∧ s1 = { s with pcs := s.pcs.set i PC.inflight, sem := s.sem + 1 } := by
  simp only [Stage.step] at h
  split at h
  · rename_i hpc
    split at h
    · rename_i hc
      simp only [Option.some.injEq] at h
      exact ⟨hpc, hc, h.symm⟩
    · cases h
  · cases h

theorem Stage.step_call {τ σ ρ α β : Type} (S : Stage τ σ ρ α β) (s s1 : PoolState σ ρ)
    (i : Nat) (env : α) (h : S.step s (Act.call i env : Act α β) = some s1) :
    ∃ item, s.pcs[i]? = some PC.inflight ∧ S.items[i]? = some item
      ∧ s1 = { s with pcs := s.pcs.set i (PC.back (S.call s.shared env item).2),
                      shared := (S.call s.shared env item).1 } := by
  simp only [Stage.step] at h
  split at h
  · rename_i item hpc hitem
    simp only [Option.some.injEq] at h
    exact ⟨item, hpc, hitem, h.symm⟩
  · cases h

theorem Stage.step_settle {τ σ ρ α β : Type} (S : Stage τ σ ρ α β) (s s1 : PoolState σ ρ)
    (i : Nat) (env : β) (h : S.step s (Act.settle i env : Act α β) = some s1) :
    ∃ item r, s.pcs[i]? = some (PC.back r) ∧ S.items[i]? = some item
      ∧ s1 = { s with pcs := s.pcs.set i PC.settled,
                      shared := S.settle s.shared env item r } := by
  simp only [Stage.step] at h
  split at h
  · rename_i r item hpc hitem
    simp only [Option.some.injEq] at h
    exact ⟨item, r, hpc, hitem, h.symm⟩
  · cases h

theorem Stage.step_release {τ σ ρ α β : Type} (S : Stage τ σ ρ α β) (s s1 : PoolState σ ρ)
    (i : Nat) (h : S.step s (Act.release i : Act α β) = some s1) :
    s.pcs[i]? = some PC.settled
      ∧ s1 = { s with pcs := s.pcs.set i PC.released, sem := s.sem - 1 } := by
  simp only [Stage.step] at h
  split at h
  · rename_i hpc
    simp only [Option.some.injEq] at h
    exact ⟨hpc, h.symm⟩
  · cases h

theorem Stage.step_finish {τ σ ρ α β : Type} (S : Stage τ σ ρ α β) (s s1 : PoolState σ ρ)
    (i : Nat) (h : S.step s (Act.finish i : Act α β) = some s1) :
    s.pcs[i]? = some PC.released
      ∧ s1 = { s with pcs := s.pcs.set i PC.done, wg := s.wg - 1 } := by
  simp only [Stage.step] at h
  split at h
  · rename_i hpc
    simp only [Option.some.injEq] at h
    exact ⟨hpc, h.symm⟩
  · cases h

theorem Stage.step_wait {τ σ ρ α β : Type} (S : Stage τ σ ρ α β) (s s1 : PoolState σ ρ)
    (h : S.step s (Act.wait : Act α β) = some s1) :
    s.returned = false ∧ s.pcs.length = S.items.length ∧ s.wg = 0
      ∧ s1 = { s with returned := true } := by
  simp only [Stage.step] at h
  split at h
  · rename_i hc
    simp only [Option.some.injEq] at h
    exact ⟨hc.1, hc.2.1, hc.2.2, h.symm⟩
  · cases h

theorem countP_pos_of_getElem? {γ : Type} (p : γ → Bool) (l : List γ) (i : Nat) (a : γ)
    (h : l[i]? = some a) (hp : p a = true) : 0 < l.countP p :=
  List.countP_pos_iff.mpr ⟨a, List.getElem?_mem h, hp⟩

theorem PoolInv.step {τ σ ρ α β : Type} (S : Stage τ σ ρ α β) (s : PoolState σ ρ)
    (a : Act α β) (s1 : PoolState σ ρ) (hinv : PoolInv S s) (hstep : S.step s a = some s1) :
    PoolInv S s1 := by
  cases a with
  | spawn =>
    obtain ⟨hret, hlt, rfl⟩ := S.step_spawn s s1 hstep
    refine ⟨?_, ?_, ?_, hinv.sem_le, ?_⟩
    · simp only [List.length_append, List.length_singleton]
      omega
    · simp [List.countP_append, PC.holds, hinv.sem_eq]
    · simp [List.countP_append, PC.live, hinv.wg_eq]
    · intro h
      simp only at h
      rw [hret] at h
      cases h
  | acquire i =>
    obtain ⟨hpc, hcap, rfl⟩ := S.step_acquire s s1 i hstep
    exact PoolInv.worker_move S s _ i PC.queued PC.inflight hinv hpc rfl rfl
      (by simp [PC.holds]) (by simp [PC.live]) (by simp only; omega) rfl
  | call i env =>
    obtain ⟨item, hpc, hitem, rfl⟩ := S.step_call s s1 i env hstep
    exact PoolInv.worker_move S s _ i PC.inflight (PC.back _) hinv hpc rfl rfl
      (by simp [PC.holds]) (by simp [PC.live]) hinv.sem_le rfl
  | settle i env =>
    obtain ⟨item, r, hpc, hitem, rfl⟩ := S.step_settle s s1 i env hstep
    exact PoolInv.worker_move S s _ i (PC.back r) PC.settled hinv hpc rfl rfl
      (by simp [PC.holds]) (by simp [PC.live]) hinv.sem_le rfl
  | release i =>
    obtain ⟨hpc, rfl⟩ := S.step_release s s1 i hstep
    have hpos := countP_pos_of_getElem? PC.holds s.pcs i PC.settled hpc rfl
    have hsem := hinv.sem_eq
    exact PoolInv.worker_move S s _ i PC.settled PC.released hinv hpc rfl rfl
      (by simp only [PC.holds]; simp; omega) (by simp [PC.live])
      (by have := hinv.sem_le; simp only; omega) rfl
  | finish i =>
    obtain ⟨hpc, rfl⟩ := S.step_finish s s1 i hstep
    have hpos := countP_pos_of_getElem? PC.live s.pcs i PC.released hpc rfl
    have hwg := hinv.wg_eq
    exact PoolInv.worker_move S s _ i PC.released PC.done hinv hpc rfl rfl
      (by simp [PC.holds]) (by simp only [PC.live]; simp; omega) hinv.sem_le rfl
  | wait =>
    obtain ⟨hret, hlen, hwg, rfl⟩ := S.step_wait s s1 hstep
    refine ⟨hinv.started_le, hinv.sem_eq, hinv.wg_eq, hinv.sem_le, ?_⟩
    intro _
    refine ⟨hlen, ?_⟩
    intro pc hpc
    have h0 : s.pcs.countP PC.live = 0 := by rw [← hinv.wg_eq]; exact hwg
    have := List.countP_eq_zero.mp h0 pc hpc
    cases pc <;> simp_all [PC.live]

/-- Every state a stage can reach satisfies the invariant. -/
theorem PoolInv.reachable {τ σ ρ α β : Type} (S : Stage τ σ ρ α β) (shared : σ)
    (schedule : List (Act α β)) (s : PoolState σ ρ)
    (hrun : S.run (PoolState.init shared) schedule = some s) : PoolInv S s :=
  S.run_induction (PoolInv S) (fun s a s1 h hs => PoolInv.step S s a s1 h hs)
    (PoolState.init shared) (PoolInv.init S shared) schedule s hrun

/-! ## Enabled moves, the sequential schedule, absence of deadlock -/

theorem Stage.spawn_enabled {τ σ ρ α β : Type} (S : Stage τ σ ρ α β) (s : PoolState σ ρ)
    (hret : s.returned = false) (hlt : s.pcs.length < S.items.length) :
    S.step s (Act.spawn : Act α β)
      = some { s with pcs := s.pcs ++ [PC.queued], wg := s.wg + 1 } := by
  simp [Stage.step, hret, hlt]

theorem Stage.acquire_enabled {τ σ ρ α β : Type} (S : Stage τ σ ρ α β) (s : PoolState σ ρ)
    (i : Nat) (hpc : s.pcs[i]? = some PC.queued) (hcap : s.sem < S.cap) :
    S.step s (Act.acquire i : Act α β)
      = some { s with pcs := s.pcs.set i PC.inflight, sem := s.sem + 1 } := by
  simp [Stage.step, hpc, hcap]

theorem Stage.call_enabled {τ σ ρ α β : Type} (S : Stage τ σ ρ α β) (s : PoolState σ ρ)
    (i : Nat) (env : α) (item : τ) (hpc : s.pcs[i]? = some PC.inflight)
    (hitem : S.items[i]? = some item) :
    S.step s (Act.call i env : Act α β)
      = some { s with pcs := s.pcs.set i (PC.back (S.call s.shared env item).2),
                      shared := (S.call s.shared env item).1 } := by
  simp [Stage.step, hpc, hitem]

theorem Stage.settle_enabled {τ σ ρ α β : Type} (S : Stage τ σ ρ α β) (s : PoolState σ ρ)
    (i : Nat) (env : β) (item : τ) (r : ρ) (hpc : s.pcs[i]? = some (PC.back r))
    (hitem : S.items[i]? = some item) :
    S.step s (Act.settle i env : Act α β)
      = some { s with pcs := s.pcs.set i PC.settled,
                      shared := S.settle s.shared env item r } := by
  simp [Stage.step, hpc, hitem]

theorem Stage.release_enabled {τ σ ρ α β : Type} (S : Stage τ σ ρ α β) (s : PoolState σ ρ)
    (i : Nat) (hpc : s.pcs[i]? = some PC.settled) :
    S.step s (Act.release i : Act α β)
      = some { s with pcs := s.pcs.set i PC.released, sem := s.sem - 1 } := by
  simp [Stage.step, hpc]

theorem Stage.finish_enabled {τ σ ρ α β : Type} (S : Stage τ σ ρ α β) (s : PoolState σ ρ)
    (i : Nat) (hpc : s.pcs[i]? = some PC.released) :
    S.step s (Act.finish i : Act α β)
      = some { s with pcs := s.pcs.set i PC.done, wg := s.wg - 1 } := by
  simp [Stage.step, hpc]

theorem Stage.wait_enabled {τ σ ρ α β : Type} (S : Stage τ σ ρ α β) (s : PoolState σ ρ)
    (hret : s.returned = false) (hlen : s.pcs.length = S.items.length) (hwg : s.wg = 0) :
    S.step s (Act.wait : Act α β) = some { s with returned := true } := by
  simp [Stage.step, hret, hlen, hwg]

theorem set_concat_length {γ : Type} (l : List γ) (a b : γ) :
    (l ++ [a]).set l.length b = l ++ [b] := by
  rw [List.set_append_right _ _ (Nat.le_refl _)]
  simp

/-- One worker run from start to end while nothing else moves. -/
theorem Stage.run_one_worker {τ σ ρ α β : Type} (S : Stage τ σ ρ α β) (s : PoolState σ ρ)
    (ea : α) (eb : β) (item : τ) (hret : s.returned = false) (hcap : s.sem < S.cap)
    (hitem : S.items[s.pcs.length]? = some item) :
    S.run s [Act.spawn, Act.acquire s.pcs.length, Act.call s.pcs.length ea,
        Act.settle s.pcs.length eb, Act.release s.pcs.length, Act.finish s.pcs.length]
      = some { s with pcs := s.pcs ++ [PC.done]
                      shared := S.settle (S.call s.shared ea item).1 eb item
                        (S.call s.shared ea item).2 } := by
  have hlt : s.pcs.length < S.items.length := by
    obtain ⟨h, _⟩ := List.getElem?_eq_some.mp hitem
    exact h
  simp [Stage.run, Stage.step, hret, hlt, hcap, hitem, set_concat_length]

/-- The workers of `n` further items run one after the other. -/
theorem Stage.run_sequentialFrom {τ σ ρ α β : Type} (S : Stage τ σ ρ α β) (ea : Nat → α)
    (eb : Nat → β) (n : Nat) (s : PoolState σ ρ) (hret : s.returned = false)
    (hcap : s.sem < S.cap) (hlen : s.pcs.length + n ≤ S.items.length) :
    ∃ s1, S.run s (sequentialFrom ea eb s.pcs.length n) = some s1
      ∧ s1.returned = false ∧ s1.sem = s.sem ∧ s1.wg = s.wg
      ∧ s1.pcs = s.pcs ++ List.replicate n PC.done := by
  induction n generalizing s with
  | zero => exact ⟨s, rfl, hret, rfl, rfl, by simp⟩
  | succ n ih =>
    have hlt : s.pcs.length < S.items.length := by omega
    obtain ⟨item, hitem⟩ : ∃ item, S.items[s.pcs.length]? = some item :=
      ⟨S.items[s.pcs.length], List.getElem?_eq_getElem hlt⟩
    have h1 := S.run_one_worker s (ea s.pcs.length) (eb s.pcs.length) item hret hcap hitem
    obtain ⟨s1, hrun, hr1, hsem, hwg, hpcs⟩ :=
      ih { s with pcs := s.pcs ++ [PC.done]
                  shared := S.settle (S.call s.shared (ea s.pcs.length) item).1
                    (eb s.pcs.length) item (S.call s.shared (ea s.pcs.length) item).2 }
        hret hcap (by simp only [List.length_append, List.length_singleton]; omega)
    refine ⟨s1, ?_, hr1, hsem, hwg, ?_⟩
    · simp only [sequentialFrom]
      rw [Stage.run_append, h1]
      simp only [Option.some_bind]
      have hl : (s.pcs ++ [PC.done (ρ := ρ)]).length = s.pcs.length + 1 := by simp
      rw [← hl]
      exact hrun
    · rw [hpcs]
      simp [List.replicate_succ]

/-- The sequential schedule of a stage with capacity at least one ends with
`wg.Wait()` returned. -/
theorem Stage.run_sequential {τ σ ρ α β : Type} (S : Stage τ σ ρ α β) (hcap : 1 ≤ S.cap)
    (ea : Nat → α) (eb : Nat → β) (shared : σ) :
    ∃ s, S.run (PoolState.init shared) (sequential ea eb S.items.length) = some s
      ∧ s.returned = true := by
  obtain ⟨s1, hrun, hr1, hsem, hwg, hpcs⟩ :=
    S.run_sequentialFrom ea eb S.items.length (PoolState.init shared) rfl
      (by simp only [PoolState.init]; omega) (by simp [PoolState.init])
  have hlen : s1.pcs.length = S.items.length := by
    rw [hpcs]
    simp [PoolState.init]
  have hwg0 : s1.wg = 0 := by rw [hwg]; rfl
  refine ⟨{ s1 with returned := true }, ?_, rfl⟩
  unfold sequential
  rw [Stage.run_append]
  have h0 : (PoolState.init shared : PoolState σ ρ).pcs.length = 0 := rfl
  rw [h0] at hrun
  rw [hrun]
  simp only [Option.some_bind, Stage.run, S.wait_enabled s1 hr1 hlen hwg0]

/-- A stage with capacity at least one never blocks before `wg.Wait()` has
returned: some move is enabled. -/
theorem Stage.no_deadlock {τ σ ρ α β : Type} (S : Stage τ σ ρ α β) (hcap : 1 ≤ S.cap)
    (ea : α) (eb : β) (s : PoolState σ ρ) (hinv : PoolInv S s) (hret : s.returned = false) :
    ∃ a s1, S.step s a = some s1 := by
  by_cases hlt : s.pcs.length < S.items.length
  · exact ⟨Act.spawn, _, S.spawn_enabled s hret hlt⟩
  have hlen : s.pcs.length = S.items.length := by
    have := hinv.started_le
    omega
  by_cases hbusy : ∃ pc ∈ s.pcs, pc ≠ PC.done ∧ pc ≠ PC.queued
  · obtain ⟨pc, hmem, hnd, hnq⟩ := hbusy
    obtain ⟨i, hi⟩ := List.mem_iff_getElem?.mp hmem
    have hil : i < S.items.length := by
      obtain ⟨h, _⟩ := List.getElem?_eq_some.mp hi
      omega
    have hitem : S.items[i]? = some S.items[i] := List.getElem?_eq_getElem hil
    cases pc with
    | queued => exact absurd rfl hnq
    | inflight => exact ⟨Act.call i ea, _, S.call_enabled s i ea _ hi hitem⟩
    | back r => exact ⟨Act.settle i eb, _, S.settle_enabled s i eb _ r hi hitem⟩
    | settled => exact ⟨Act.release i, _, S.release_enabled s i hi⟩
    | released => exact ⟨Act.finish i, _, S.finish_enabled s i hi⟩
    | done => exact absurd rfl hnd
  have hidle : ∀ pc ∈ s.pcs, pc = PC.done ∨ pc = PC.queued := by
    intro pc hmem
    by_cases h1 : pc = PC.done
    · exact Or.inl h1
    · by_cases h2 : pc = PC.queued
      · exact Or.inr h2
      · exact absurd ⟨pc, hmem, h1, h2⟩ hbusy
  by_cases hq : ∃ pc ∈ s.pcs, pc = PC.queued
  · obtain ⟨pc, hmem, rfl⟩ := hq
    obtain ⟨i, hi⟩ := List.mem_iff_getElem?.mp hmem
    have h0 : s.pcs.countP PC.holds = 0 := by
      apply List.countP_eq_zero.mpr
      intro pc hpc
      rcases hidle pc hpc with h | h <;> subst h <;> simp [PC.holds]
    have hsem : s.sem < S.cap := by
      rw [hinv.sem_eq, h0]
      omega
    exact ⟨Act.acquire i, _, S.acquire_enabled s i hi hsem⟩
  · have h0 : s.pcs.countP PC.live = 0 := by
      apply List.countP_eq_zero.mpr
      intro pc hpc
      rcases hidle pc hpc with h | h
      · subst h; simp [PC.live]
      · exact absurd ⟨pc, hpc, h⟩ hq
    have hwg : s.wg = 0 := by rw [hinv.wg_eq, h0]
    exact ⟨Act.wait, _, S.wait_enabled s hret hlen hwg⟩

theorem sum_rank_set {ρ : Type} (l : List (PC ρ)) (i : Nat) (a b : PC ρ)
    (h : l[i]? = some a) :
    ((l.set i b).map PC.rank).sum + a.rank = (l.map PC.rank).sum + b.rank := by
  induction l generalizing i with
  | nil => simp at h
  | cons x l ih =>
    cases i with
    | zero =>
      simp only [List.getElem?_cons_zero, Option.some.injEq] at h
      subst h
      simp only [List.set_cons_zero, List.map_cons, List.sum_cons]
      omega
    | succ i =>
      simp only [List.getElem?_cons_succ] at h
      have := ih i h
      simp only [List.set_cons_succ, List.map_cons, List.sum_cons]
      omega

/-- Every move advances the progress count by one. -/
theorem Stage.step_progress {τ σ ρ α β : Type} (S : Stage τ σ ρ α β) (s : PoolState σ ρ)
    (a : Act α β) (s1 : PoolState σ ρ) (hstep : S.step s a = some s1) :
    s1.progress = s.progress + 1 := by
  cases a with
  | spawn =>
    obtain ⟨_, _, rfl⟩ := S.step_spawn s s1 hstep
    simp only [PoolState.progress, List.map_append, List.sum_append, List.map_cons,
      List.map_nil, List.sum_cons, List.sum_nil, PC.rank]
    omega
  | acquire i =>
    obtain ⟨hpc, _, rfl⟩ := S.step_acquire s s1 i hstep
    have := sum_rank_set s.pcs i PC.queued PC.inflight hpc
    simp only [PoolState.progress, PC.rank] at this ⊢
    omega
  | call i env =>
    obtain ⟨item, hpc, _, rfl⟩ := S.step_call s s1 i env hstep
    have := sum_rank_set s.pcs i PC.inflight (PC.back (S.call s.shared env item).2) hpc
    simp only [PoolState.progress, PC.rank] at this ⊢
    omega
  | settle i env =>
    obtain ⟨item, r, hpc, _, rfl⟩ := S.step_settle s s1 i env hstep
    have := sum_rank_set s.pcs i (PC.back r) PC.settled hpc
    simp only [PoolState.progress, PC.rank] at this ⊢
    omega
  | release i =>
    obtain ⟨hpc, rfl⟩ := S.step_release s s1 i hstep
    have := sum_rank_set s.pcs i PC.settled PC.released hpc
    simp only [PoolState.progress, PC.rank] at this ⊢
    omega
  | finish i =>
    obtain ⟨hpc, rfl⟩ := S.step_finish s s1 i hstep
    have := sum_rank_set s.pcs i PC.released PC.done hpc
    simp only [PoolState.progress, PC.rank] at this ⊢
    omega
  | wait =>
    obtain ⟨hret, _, _, rfl⟩ := S.step_wait s s1 hstep
    simp [PoolState.progress, hret]

theorem Stage.run_progress {τ σ ρ α β : Type} (S : Stage τ σ ρ α β) (s : PoolState σ ρ)
    (schedule : List (Act α β)) (s1 : PoolState σ ρ) (hrun : S.run s schedule = some s1) :
    s1.progress = s.progress + schedule.length := by
  induction schedule generalizing s with
  | nil =>
    simp only [Stage.run, Option.some.injEq] at hrun
    subst hrun
    rfl
  | cons a rest ih =>
    simp only [Stage.run] at hrun
    cases hst : S.step s a with
    | none => rw [hst] at hrun; cases hrun
    | some s2 =>
      rw [hst] at hrun
      rw [ih s2 hrun, S.step_progress s a s2 hst, List.length_cons]
      omega

theorem sum_rank_le {ρ : Type} (l : List (PC ρ)) : (l.map PC.rank).sum ≤ 6 * l.length := by
  induction l with
  | nil => simp
  | cons x l ih =>
    simp only [List.map_cons, List.sum_cons, List.length_cons]
    have : x.rank ≤ 6 := by cases x <;> simp [PC.rank]
    omega

/-- No schedule of a stage is longer than six moves per item plus one. -/
theorem Stage.schedule_length_le {τ σ ρ α β : Type} (S : Stage τ σ ρ α β) (shared : σ)
    (schedule : List (Act α β)) (s : PoolState σ ρ)
    (hrun : S.run (PoolState.init shared) schedule = some s) :
    schedule.length ≤ 6 * S.items.length + 1 := by
  have hp := S.run_progress _ schedule s hrun
  have hinv := PoolInv.reachable S shared schedule s hrun
  have h0 : (PoolState.init shared : PoolState σ ρ).progress = 0 := by
    simp [PoolState.progress, PoolState.init]
  have h1 := sum_rank_le s.pcs
  have h2 := hinv.started_le
  have h3 : s.progress ≤ 6 * s.pcs.length + 1 := by
    simp only [PoolState.progress]
    split <;> omega
  omega

/-! ## The transfer stage: one record per descriptor -/

theorem credited_nil_right {ρ : Type} (ms : List Media) :
    credited ms ([] : List (PC ρ)) = [] := by
  cases ms <;> rfl

theorem credited_append_queued {ρ : Type} (ms : List Media) (pcs : List (PC ρ)) :
    credited ms (pcs ++ [PC.queued]) = credited ms pcs := by
  induction ms generalizing pcs with
  | nil => simp [credited]
  | cons m ms ih =>
    cases pcs with
    | nil => simp [credited, PC.past, credited_nil_right]
    | cons pc pcs => simp [credited, ih]

theorem credited_set_same {ρ : Type} (ms : List Media) (pcs : List (PC ρ)) (i : Nat)
    (a b : PC ρ) (ha : pcs[i]? = some a) (hab : a.past = b.past) :
    credited ms (pcs.set i b) = credited ms pcs := by
  induction ms generalizing pcs i with
  | nil => simp [credited]
  | cons m ms ih =>
    cases pcs with
    | nil => simp at ha
    | cons pc pcs =>
      cases i with
      | zero =>
        simp only [List.getElem?_cons_zero, Option.some.injEq] at ha
        subst ha
        simp [credited, hab]
      | succ i =>
        simp only [List.getElem?_cons_succ] at ha
        simp [credited, ih pcs i ha]

theorem credited_set_past {ρ : Type} (ms : List Media) (pcs : List (PC ρ)) (i : Nat)
    (a b : PC ρ) (m : Media) (ha : pcs[i]? = some a) (hm : ms[i]? = some m)
    (hpa : a.past = false) (hpb : b.past = true) :
    (credited ms (pcs.set i b)).Perm (m.key :: credited ms pcs) := by
  induction ms generalizing pcs i with
  | nil => simp at hm
  | cons m0 ms ih =>
    cases pcs with
    | nil => simp at ha
    | cons pc pcs =>
      cases i with
      | zero =>
        simp only [List.getElem?_cons_zero, Option.some.injEq] at ha hm
        subst ha
        subst hm
        simp [credited, hpa, hpb]
      | succ i =>
        simp only [List.getElem?_cons_succ] at ha hm
        have := ih pcs i ha hm
        simp only [List.set_cons_succ, credited]
        exact (List.Perm.append_left _ this).trans List.perm_middle

theorem credited_all_done {ρ : Type} (ms : List Media) (pcs : List (PC ρ))
    (hlen : pcs.length = ms.length) (hdone : ∀ pc ∈ pcs, pc = PC.done) :
    credited ms pcs = ms.map Media.key := by
  induction ms generalizing pcs with
  | nil => simp [credited]
  | cons m ms ih =>
    cases pcs with
    | nil => simp at hlen
    | cons pc pcs =>
      have hpc : pc = PC.done := hdone pc (List.mem_cons_self _ _)
      subst hpc
      simp only [List.length_cons, Nat.add_right_cancel_iff] at hlen
      simp [credited, PC.past, ih pcs hlen (fun pc h => hdone pc (List.mem_cons_of_mem _ h))]

/-- The records appended so far are those of the workers past their append. -/
theorem DownloadMedias_credited (sha : Bytes → String) (medias : List Media) (parallel : Nat)
    (w : World) (schedule : List (Act Response Unit)) (s : PoolState Transfer GoError)
    (hrun : (DownloadMedias sha medias parallel).run
      (PoolState.init { world := w, downloads := [] }) schedule = some s) :
    (s.shared.downloads.map Download.key).Perm (credited medias s.pcs) := by
  refine (DownloadMedias sha medias parallel).run_induction
    (fun s => (s.shared.downloads.map Download.key).Perm (credited medias s.pcs))
    ?_ _ ?_ schedule s hrun
  · intro s a s1 hJ hstep
    cases a with
    | spawn =>
      obtain ⟨_, _, rfl⟩ := Stage.step_spawn _ s s1 hstep
      simp only [credited_append_queued]
      exact hJ
    | acquire i =>
      obtain ⟨hpc, _, rfl⟩ := Stage.step_acquire _ s s1 i hstep
      simp only [credited_set_same medias s.pcs i PC.queued PC.inflight hpc rfl]
      exact hJ
    | call i env =>
      obtain ⟨item, hpc, _, rfl⟩ := Stage.step_call _ s s1 i env hstep
      simp only [credited_set_same medias s.pcs i PC.inflight (PC.back _) hpc rfl]
      exact hJ
    | settle i env =>
      obtain ⟨item, r, hpc, hitem, rfl⟩ := Stage.step_settle _ s s1 i env hstep
      have hp := credited_set_past medias s.pcs i (PC.back r) PC.settled item hpc hitem rfl rfl
      refine List.Perm.trans ?_ hp.symm
      simp only [DownloadMedias, List.map_append, List.map_cons, List.map_nil]
      exact (List.perm_append_singleton _ _).trans (List.Perm.cons _ hJ)
    | release i =>
      obtain ⟨hpc, rfl⟩ := Stage.step_release _ s s1 i hstep
      simp only [credited_set_same medias s.pcs i PC.settled PC.released hpc rfl]
      exact hJ
    | finish i =>
      obtain ⟨hpc, rfl⟩ := Stage.step_finish _ s s1 i hstep
      simp only [credited_set_same medias s.pcs i PC.released PC.done hpc rfl]
      exact hJ
    | wait =>
      obtain ⟨_, _, _, rfl⟩ := Stage.step_wait _ s s1 hstep
      exact hJ
  · simp [PoolState.init, credited_nil_right]

theorem PoolInv.inFlight_le {τ σ ρ α β : Type} (S : Stage τ σ ρ α β) (s : PoolState σ ρ)
    (hinv : PoolInv S s) : s.inFlight ≤ S.cap := by
  have h1 : s.pcs.countP PC.flying ≤ s.pcs.countP PC.holds := by
    apply List.countP_mono_left
    intro pc _ h
    cases pc <;> simp_all [PC.flying, PC.holds]
  have h2 := hinv.sem_eq
  have h3 := hinv.sem_le
  unfold PoolState.inFlight
  omega

theorem PoolInv.attempts_eq {τ σ ρ α β : Type} (S : Stage τ σ ρ α β) (s : PoolState σ ρ)
    (hinv : PoolInv S s) (hret : s.returned = true) : s.attempts = S.items.length := by
  obtain ⟨hlen, hdone⟩ := hinv.all_done hret
  unfold PoolState.attempts
  rw [← hlen]
  apply List.countP_eq_length.mpr
  intro pc hpc
  rw [hdone pc hpc]
  rfl

/-- C1. For every list of descriptors, every `parallel ≥ 1`, every schedule of the
goroutines and every mix of answers of the transport: `DownloadMedias` returns
(the sequential schedule ends with `wg.Wait()` returned, no reachable state
before that is blocked, and no schedule is longer than `6 * N + 1` moves), and
when it has returned the slice `downloads` has exactly `N` records whose
`(Url, FilePath)` pairs are, as a multiset, those of the descriptors. -/
theorem DownloadMedias_one_record_per_media (sha : Bytes → String) (medias : List Media)
    (parallel : Nat) (w : World) (hpar : 1 ≤ parallel) :
    (∀ responses : Nat → Response, ∃ s,
        (DownloadMedias sha medias parallel).run
            (PoolState.init { world := w, downloads := [] })
            (sequential responses (fun _ => ()) medias.length) = some s
          ∧ s.returned = true)
      ∧ (∀ (schedule : List (Act Response Unit)) (s : PoolState Transfer GoError),
          (DownloadMedias sha medias parallel).run
              (PoolState.init { world := w, downloads := [] }) schedule = some s →
            schedule.length ≤ 6 * medias.length + 1
              ∧ (s.returned = false →
                  ∃ a s1, (DownloadMedias sha medias parallel).step s a = some s1)
              ∧ (s.returned = true →
                  s.shared.downloads.length = medias.length
                    ∧ Multiset.ofList (s.shared.downloads.map Download.key)
                        = Multiset.ofList (medias.map Media.key))) := by
  constructor
  · intro responses
    exact (DownloadMedias sha medias parallel).run_sequential hpar responses (fun _ => ()) _
  · intro schedule s hrun
    have hinv := PoolInv.reachable _ _ schedule s hrun
    refine ⟨Stage.schedule_length_le _ _ schedule s hrun, ?_, ?_⟩
    · intro hret
      exact Stage.no_deadlock _ hpar { StatusCode := 200, err := none, saved := none } () s
        hinv hret
    · intro hret
      obtain ⟨hlen, hdone⟩ := hinv.all_done hret
      have hc := DownloadMedias_credited sha medias parallel w schedule s hrun
      rw [credited_all_done medias s.pcs hlen hdone] at hc
      refine ⟨?_, Multiset.coe_eq_coe.mpr hc⟩
      have := hc.length_eq
      simpa using this

theorem DownloadMedias_one_record_per_media_witness :
    1 ≤ 2 ∧ ∃ s, (DownloadMedias demoDigest demoMedias 2).run emptyStart demoSchedule = some s
      ∧ s.returned = true
      ∧ s.shared.downloads.map (fun d => (d.FilePath, d.IsSuccess))
          = [("d/9.jpg", false), ("d/1.jpg", true)]
      ∧ s.shared.downloads.length = demoMedias.length
      ∧ Multiset.ofList (s.shared.downloads.map Download.key)
          = Multiset.ofList (demoMedias.map Media.key) := by
  refine ⟨by decide, ?_⟩
  have hsome : ((DownloadMedias demoDigest demoMedias 2).run emptyStart demoSchedule).isSome
      = true := by decide
  obtain ⟨s, hs⟩ := Option.isSome_iff_exists.mp hsome
  have hret : ((DownloadMedias demoDigest demoMedias 2).run emptyStart demoSchedule).map
      (fun s => s.returned) = some true := by decide
  have hlist : ((DownloadMedias demoDigest demoMedias 2).run emptyStart demoSchedule).map
      (fun s => s.shared.downloads.map (fun d => (d.FilePath, d.IsSuccess)))
        = some [("d/9.jpg", false), ("d/1.jpg", true)] := by decide
  rw [hs] at hret hlist
  simp only [Option.map_some', Option.some.injEq] at hret hlist
  have h := ((DownloadMedias_one_record_per_media demoDigest demoMedias 2
    { fs := fun _ => none, fetched := [] } (by decide)).2 demoSchedule s hs).2.2 hret
  exact ⟨s, hs, hret, hlist, h.1, h.2⟩

/-- C9. In every state `DownloadMedias` can reach at most `parallel` fetches are
in flight, in every state `ConvertImages` and `ConvertVideos` can reach at most 5
encoder calls are in flight, and once `wg.Wait()` has returned the blocking call
of every item of the stage has returned. -/
theorem stages_respect_cap (sha : Bytes → String) (medias : List Media) (parallel : Nat)
    (downloads : List Download) :
    (∀ (w : World) (schedule : List (Act Response Unit)) (s : PoolState Transfer GoError),
        (DownloadMedias sha medias parallel).run
            (PoolState.init { world := w, downloads := [] }) schedule = some s →
          s.inFlight ≤ parallel ∧ (s.returned = true → s.attempts = medias.length))
      ∧ (∀ (fs : Fs) (schedule : List (Act (Option Bytes) Bool)) (s : PoolState Fs Unit),
          (ConvertImages downloads).run (PoolState.init fs) schedule = some s →
            s.inFlight ≤ 5
              ∧ (s.returned = true → s.attempts = (downloads.filter isImage).length))
      ∧ (∀ (fs : Fs) (schedule : List (Act (Option Bytes) Bool)) (s : PoolState Fs Unit),
          (ConvertVideos downloads).run (PoolState.init fs) schedule = some s →
            s.inFlight ≤ 5
              ∧ (s.returned = true → s.attempts = (downloads.filter isVideo).length)) := by
  refine ⟨?_, ?_, ?_⟩
  · intro w schedule s hrun
    have hinv := PoolInv.reachable _ _ schedule s hrun
    exact ⟨hinv.inFlight_le, fun h => hinv.attempts_eq _ _ h⟩
  · intro fs schedule s hrun
    have hinv := PoolInv.reachable _ _ schedule s hrun
    exact ⟨hinv.inFlight_le, fun h => hinv.attempts_eq _ _ h⟩
  · intro fs schedule s hrun
    have hinv := PoolInv.reachable _ _ schedule s hrun
    exact ⟨hinv.inFlight_le, fun h => hinv.attempts_eq _ _ h⟩

theorem stages_respect_cap_witness :
    (∃ s, (DownloadMedias demoDigest demoMedias 1).run emptyStart
          [Act.spawn, Act.spawn, Act.acquire 1] = some s
        ∧ s.inFlight = 1 ∧ s.inFlight ≤ 1
        ∧ (DownloadMedias demoDigest demoMedias 1).step s (Act.acquire 0) = none)
      ∧ ((DownloadMedias demoDigest demoMedias 2).run emptyStart demoSchedule).map
          (fun s => (s.returned, s.attempts)) = some (true, 2)
      ∧ ((ConvertImages [pngDownload]).run (PoolState.init pngFs)
          [Act.spawn, Act.acquire 0]).map (fun s => s.inFlight) = some 1 := by
  refine ⟨?_, by decide, by decide⟩
  have hsome : ((DownloadMedias demoDigest demoMedias 1).run emptyStart
      [Act.spawn, Act.spawn, Act.acquire 1]).isSome = true := by decide
  obtain ⟨s, hs⟩ := Option.isSome_iff_exists.mp hsome
  have hfly : ((DownloadMedias demoDigest demoMedias 1).run emptyStart
      [Act.spawn, Act.spawn, Act.acquire 1]).map (fun s => s.inFlight) = some 1 := by decide
  have hblock : (((DownloadMedias demoDigest demoMedias 1).run emptyStart
      [Act.spawn, Act.spawn, Act.acquire 1]).bind
        (fun s => (DownloadMedias demoDigest demoMedias 1).step s (Act.acquire 0))).isNone
          = true := by decide
  rw [hs] at hfly hblock
  simp only [Option.map_some', Option.some.injEq, Option.some_bind] at hfly hblock
  exact ⟨s, hs, hfly,
    ((stages_respect_cap demoDigest demoMedias 1 []).1 _ _ s hs).1,
    Option.isNone_iff_eq_none.mp hblock⟩

/-! ## The transfer stage on files that are already there -/

theorem downloadFile_of_exists (w : World) (resp : Response) (url filePath : String)
    (h : (w.fs filePath).isSome = true) : downloadFile w resp url filePath = (w, none) := by
  simp [downloadFile, h]

/-- When every destination holds a file, no move of `DownloadMedias` changes the
world, every call of `downloadFile` returns `nil` and every record appended is a
success. -/
theorem DownloadMedias_all_exist (sha : Bytes → String) (medias : List Media) (parallel : Nat)
    (w : World) (hexists : ∀ m ∈ medias, (w.fs m.FilePath).isSome = true)
    (schedule : List (Act Response Unit)) (s : PoolState Transfer GoError)
    (hrun : (DownloadMedias sha medias parallel).run
      (PoolState.init { world := w, downloads := [] }) schedule = some s) :
    s.shared.world = w
      ∧ (∀ d ∈ s.shared.downloads, d.IsSuccess = true ∧ d.Error = none)
      ∧ (∀ r, PC.back r ∈ s.pcs → r = none) := by
  refine (DownloadMedias sha medias parallel).run_induction
    (fun s => s.shared.world = w
      ∧ (∀ d ∈ s.shared.downloads, d.IsSuccess = true ∧ d.Error = none)
      ∧ (∀ r, PC.back r ∈ s.pcs → r = none))
    ?_ _ ?_ schedule s hrun
  · intro s a s1 hJ hstep
    obtain ⟨hw, hd, hb⟩ := hJ
    cases a with
    | spawn =>
      obtain ⟨_, _, rfl⟩ := Stage.step_spawn _ s s1 hstep
      refine ⟨hw, hd, ?_⟩
      intro r hr
      simp only [List.mem_append, List.mem_singleton] at hr
      rcases hr with hr | hr
      · exact hb r hr
      · cases hr
    | acquire i =>
      obtain ⟨_, _, rfl⟩ := Stage.step_acquire _ s s1 i hstep
      refine ⟨hw, hd, ?_⟩
      intro r hr
      rcases List.mem_or_eq_of_mem_set hr with hr | hr
      · exact hb r hr
      · cases hr
    | call i env =>
      obtain ⟨item, _, hitem, rfl⟩ := Stage.step_call _ s s1 i env hstep
      have hmem : item ∈ medias := List.getElem?_mem hitem
      have hdl : downloadFile s.shared.world env item.Url item.FilePath
          = (s.shared.world, none) :=
        downloadFile_of_exists _ _ _ _ (by rw [hw]; exact hexists item hmem)
      refine ⟨?_, ?_, ?_⟩
      · simp only [DownloadMedias, hdl]
        exact hw
      · simp only [DownloadMedias]
        exact hd
      · intro r hr
        rcases List.mem_or_eq_of_mem_set hr with hr | hr
        · exact hb r hr
        · simp only [DownloadMedias, hdl, PC.back.injEq] at hr
          exact hr
    | settle i env =>
      obtain ⟨item, r, hpc, _, rfl⟩ := Stage.step_settle _ s s1 i env hstep
      have hr : r = none := hb r (List.getElem?_mem hpc)
      subst hr
      refine ⟨hw, ?_, ?_⟩
      · intro d hdm
        simp only [DownloadMedias, List.mem_append, List.mem_singleton] at hdm
        rcases hdm with hdm | hdm
        · exact hd d hdm
        · subst hdm
          exact ⟨rfl, rfl⟩
      · intro r hr
        rcases List.mem_or_eq_of_mem_set hr with hr | hr
        · exact hb r hr
        · cases hr
    | release i =>
      obtain ⟨_, rfl⟩ := Stage.step_release _ s s1 i hstep
      refine ⟨hw, hd, ?_⟩
      intro r hr
      rcases List.mem_or_eq_of_mem_set hr with hr | hr
      · exact hb r hr
      · cases hr
    | finish i =>
      obtain ⟨_, rfl⟩ := Stage.step_finish _ s s1 i hstep
      refine ⟨hw, hd, ?_⟩
      intro r hr
      rcases List.mem_or_eq_of_mem_set hr with hr | hr
      · exact hb r hr
      · cases hr
    | wait =>
      obtain ⟨_, _, _, rfl⟩ := Stage.step_wait _ s s1 hstep
      exact ⟨hw, hd, hb⟩
  · simp [PoolState.init]

/-- C8. When the destination of a descriptor holds a file, `downloadFile` returns
`nil` without calling the transport and without changing the file system, and the
record has `IsSuccess = true` and a `nil` error. Hence when the destinations of
all descriptors hold a file, in every state `DownloadMedias` can reach the file
system and the list of requested URLs are as at the start and every record is a
success; and the stage returns one such record per descriptor. -/
theorem DownloadMedias_skips_existing_files (sha : Bytes → String) (medias : List Media)
    (parallel : Nat) (w : World)
    (hexists : ∀ m ∈ medias, (w.fs m.FilePath).isSome = true) :
    (∀ m ∈ medias, ∀ resp : Response,
        downloadFile w resp m.Url m.FilePath = (w, none)
          ∧ (getDownloadInfo sha w.fs m.Url m.FilePath
              (downloadFile w resp m.Url m.FilePath).2).IsSuccess = true
          ∧ (getDownloadInfo sha w.fs m.Url m.FilePath
              (downloadFile w resp m.Url m.FilePath).2).Error = none)
      ∧ (∀ (schedule : List (Act Response Unit)) (s : PoolState Transfer GoError),
          (DownloadMedias sha medias parallel).run
              (PoolState.init { world := w, downloads := [] }) schedule = some s →
            s.shared.world.fs = w.fs
              ∧ s.shared.world.fetched = w.fetched
              ∧ (∀ d ∈ s.shared.downloads, d.IsSuccess = true ∧ d.Error = none)
              ∧ (s.returned = true → s.shared.downloads.length = medias.length))
      ∧ (1 ≤ parallel → ∀ responses : Nat → Response, ∃ s,
          (DownloadMedias sha medias parallel).run
              (PoolState.init { world := w, downloads := [] })
              (sequential responses (fun _ => ()) medias.length) = some s
            ∧ s.returned = true) := by
  refine ⟨?_, ?_, ?_⟩
  · intro m hm resp
    have h := downloadFile_of_exists w resp m.Url m.FilePath (hexists m hm)
    rw [h]
    exact ⟨rfl, rfl, rfl⟩
  · intro schedule s hrun
    obtain ⟨hw, hd, _⟩ := DownloadMedias_all_exist sha medias parallel w hexists schedule s hrun
    refine ⟨by rw [hw], by rw [hw], hd, ?_⟩
    intro hret
    have hinv := PoolInv.reachable _ _ schedule s hrun
    obtain ⟨hlen, hdone⟩ := hinv.all_done hret
    have hc := DownloadMedias_credited sha medias parallel w schedule s hrun
    rw [credited_all_done medias s.pcs hlen hdone] at hc
    have := hc.length_eq
    simpa using this
  · intro hpar responses
    exact (DownloadMedias sha medias parallel).run_sequential hpar responses (fun _ => ()) _

theorem DownloadMedias_skips_existing_files_witness :
    (∀ m ∈ demoMediasOnDisk, (demoFs m.FilePath).isSome = true)
      ∧ ∃ s, (DownloadMedias demoDigest demoMediasOnDisk 2).run demoStart
            (sequential (fun _ => response404) (fun _ => ()) 3) = some s
          ∧ s.returned = true
          ∧ s.shared.world.fetched = []
          ∧ s.shared.downloads.length = 3
          ∧ (∀ d ∈ s.shared.downloads, d.IsSuccess = true ∧ d.Error = none) := by
  refine ⟨by decide, ?_⟩
  obtain ⟨s, hs, hret⟩ := (DownloadMedias_skips_existing_files demoDigest demoMediasOnDisk 2
    { fs := demoFs, fetched := [] } (by decide)).2.2 (by decide) (fun _ => response404)
  have h := (DownloadMedias_skips_existing_files demoDigest demoMediasOnDisk 2
    { fs := demoFs, fetched := [] } (by decide)).2.1 _ s hs
  exact ⟨s, hs, hret, h.2.1, h.2.2.2 hret, h.2.2.1⟩

end Coomer
